import Mathlib

/-!
# Verification of the wmc-file-downloader core

Shallow embedding of the category-traversal / deduplication engine, the
global-selection / slicing algorithm, the filename/path safety layer and the
download-and-log pipeline of `wmc-file-downloader.py`, together with theorems
settling the specification claims about them.

External capabilities (the Commons API member listing, URL resolution,
byte fetch, the blake2s short hash, `urllib.parse.quote` and
`os.path.abspath`) are modelled as opaque function parameters, exactly as the
spec treats them (opaque paged listing / lookup / fetch capabilities).
Python strings are modelled as Lean `String` (sequences of code points);
`str.casefold` and `str.lower` are modelled by per-character `Char.toLower`,
which coincides on the ASCII data handled here; Python string comparison is
modelled by an executable lexicographic code-point comparison.
-/

namespace Wmc

/-! ## Basic string helpers (models of Python `str` operations) -/

/-- Model of Python `s.lower()` / `s.casefold()` (per-character lowercase). -/
def lowerStr (s : String) : String := ⟨s.data.map Char.toLower⟩

/-- Model of Python `s.startswith(p)`. -/
def strStartsWith (s p : String) : Bool := p.data.isPrefixOf s.data

/-- Model of Python `s.endswith(p)`. -/
def strEndsWith (s p : String) : Bool := p.data.isSuffixOf s.data

/-- Model of Python string comparison `a <= b`: lexicographic on code
points. -/
def lexLe : List Char → List Char → Bool
  | [], _ => true
  | _ :: _, [] => false
  | a :: as, b :: bs =>
      if a < b then true else if a = b then lexLe as bs else false

/-- Model of Python `s.replace("File:", "")`: delete every occurrence of
`File:`, scanning left to right, non-overlapping. -/
def stripFileColon : List Char → List Char
  | 'F' :: 'i' :: 'l' :: 'e' :: ':' :: rest => stripFileColon rest
  | c :: rest => c :: stripFileColon rest
  | [] => []

/-- Model of Python `s.replace("Category:", "")`. -/
def stripCategoryColon : List Char → List Char
  | 'C' :: 'a' :: 't' :: 'e' :: 'g' :: 'o' :: 'r' :: 'y' :: ':' :: rest =>
      stripCategoryColon rest
  | c :: rest => c :: stripCategoryColon rest
  | [] => []

/-- Version of `title.replace("File:", "")` on `String`. -/
def stripFileColonStr (s : String) : String := ⟨stripFileColon s.data⟩

/-- Version of `sub_title.replace("Category:", "")` on `String`. -/
def stripCategoryColonStr (s : String) : String := ⟨stripCategoryColon s.data⟩

/-! ## Data model of the traversal (`harvest_files_with_depth`) -/

/-- The two member kinds requested from the paged listing capability
(`cmtype` = `"file"` or `"subcat"`). -/
inductive MemberKind where
  | file : MemberKind
  | subcat : MemberKind
deriving DecidableEq

/-- One member as returned by `fetch_category_members` (formatversion 2):
a dict with at least `title` and, for files, `pageid`. -/
structure ApiItem where
  title : String
  pageid : Option Nat := none
deriving DecidableEq

/-- The value stored in `files_unique` for one title. -/
structure FileMeta where
  title : String
  pageid : Option Nat
  mid : String
  source_category : String
  path_segments : List String
deriving DecidableEq

instance : Inhabited FileMeta :=
  ⟨{ title := "", pageid := none, mid := "", source_category := "",
     path_segments := [] }⟩

/-- Model of the mid construction (prefix `M` plus the decimal page id):
`pageid` truthy means present and nonzero. -/
def midOfPageid : Option Nat → String
  | some p => if p ≠ 0 then "M" ++ toString p else ""
  | none => ""

/-- The extension filter: `filename.lower().endswith(FILE_EXTS)` with an
empty tuple accepting everything. -/
def passesExt (exts : List String) (filename : String) : Bool :=
  exts.isEmpty || exts.any (fun e => strEndsWith (lowerStr filename) e)

/-- A member is accepted into the unique pool when its title carries the
`File:` marker and the stripped filename passes the extension filter. -/
def acceptedItem (exts : List String) (item : ApiItem) : Bool :=
  strStartsWith item.title "File:" &&
    passesExt exts (stripFileColonStr item.title)

/-- Keys of the (insertion-ordered) association list modelling the
`files_unique` dict. -/
def keysOf (fs : List (String × FileMeta)) : List String := fs.map (·.1)

/-- Body of the per-member loop of `harvest_files_with_depth`: skip members
without the `File:` marker or failing the extension filter; insert a fresh
record (first hit wins) for unseen accepted titles. -/
def insertItem (exts : List String) (cat : String) (path : List String)
    (fs : List (String × FileMeta)) (item : ApiItem) :
    List (String × FileMeta) :=
  if acceptedItem exts item then
    if item.title ∈ keysOf fs then fs
    else
      fs ++ [(item.title,
        { title := item.title
          pageid := item.pageid
          mid := midOfPageid item.pageid
          source_category := "Category:" ++ cat
          path_segments := path })]
  else fs

/-- The mutable state of the traversal: the `files_unique` dict (as an
insertion-ordered association list) and the `raw_membership` Counter (as a
total function from path tuples to counts, default 0). -/
structure HState where
  files : List (String × FileMeta)
  raw : List String → Nat

/-- Model of the Counter update on `raw_membership` at key `tuple(path)`. -/
def bumpRaw (raw : List String → Nat) (p : List String) (n : Nat) :
    List String → Nat :=
  fun q => if q = p then raw q + n else raw q

/-- Processing one dequeued node `(cat, path)`: count its raw direct file
members and run first-hit unique assignment over them. -/
def harvestNode (fetch : String → MemberKind → List ApiItem)
    (exts : List String) (st : HState) (node : String × List String) :
    HState :=
  let items := fetch node.1 MemberKind.file
  { files := items.foldl (insertItem exts node.1 node.2) st.files
    raw := bumpRaw st.raw node.2 items.length }

/-- Subcategory expansion of one node (the `d < max_depth` branch): for every
listed member with a `Category:` title not yet in `seen_categories`, mark it
seen and append `(sub_name, path + [sub_name])` to the queue. -/
def expandNode (fetch : String → MemberKind → List ApiItem)
    (acc : List String × List (String × List String))
    (node : String × List String) :
    List String × List (String × List String) :=
  (fetch node.1 MemberKind.subcat).foldl
    (fun acc item =>
      if strStartsWith item.title "Category:" then
        let subName := stripCategoryColonStr item.title
        let norm := "Category:" ++ subName
        if norm ∈ acc.1 then acc
        else (norm :: acc.1, acc.2 ++ [(subName, node.2 ++ [subName])])
      else acc)
    acc

/-- One step of the BFS loop on the combined accumulator
(seen set, harvest state, queue of the next level). -/
def stepNode (fetch : String → MemberKind → List ApiItem)
    (exts : List String) (expand : Bool)
    (acc : List String × HState × List (String × List String))
    (node : String × List String) :
    List String × HState × List (String × List String) :=
  let st := harvestNode fetch exts acc.2.1 node
  if expand then
    let e := expandNode fetch (acc.1, acc.2.2) node
    (e.1, st, e.2)
  else (acc.1, st, acc.2.2)

/-- Process one whole BFS level (the deque is always sorted by depth, so the
`while q` loop of the source processes the tree level by level; `expand`
records whether `d < max_depth` holds for this level). -/
def processLevel (fetch : String → MemberKind → List ApiItem)
    (exts : List String) (expand : Bool)
    (level : List (String × List String)) (seen : List String) (st : HState) :
    List String × HState × List (String × List String) :=
  level.foldl (stepNode fetch exts expand) (seen, st, [])

/-- The BFS loop of `harvest_files_with_depth`, level by level; the `Nat`
argument is `max_depth - d`, so expansion happens exactly while
`d < max_depth`. -/
def harvestLevels (fetch : String → MemberKind → List ApiItem)
    (exts : List String) :
    Nat → List (String × List String) → List String → HState → HState
  | 0, level, seen, st => (processLevel fetch exts false level seen st).2.1
  | r + 1, level, seen, st =>
      let acc := processLevel fetch exts true level seen st
      harvestLevels fetch exts r acc.2.2 acc.1 acc.2.1

/-- Embedding of `harvest_files_with_depth(session, root_category, max_depth)`:
start from the root at depth 0 with path `[]` and
`seen_categories = {f"Category:{root_category}"}`; return
`(files_unique, raw_membership)`. -/
def harvest_files_with_depth (fetch : String → MemberKind → List ApiItem)
    (exts : List String) (root : String) (maxDepth : Nat) :
    List (String × FileMeta) × (List String → Nat) :=
  let st := harvestLevels fetch exts maxDepth [(root, [])]
    ["Category:" ++ root] ⟨[], fun _ => 0⟩
  (st.files, st.raw)

/-- Subcategory expansion of a whole level (seen set and next-level queue
only; independent of the harvest state). -/
def expandLevel (fetch : String → MemberKind → List ApiItem)
    (level : List (String × List String)) (seen : List String) :
    List String × List (String × List String) :=
  level.foldl (expandNode fetch) (seen, [])

/-- The `(cat, path)` nodes visited by the BFS, in visitation order. -/
def levelsNodes (fetch : String → MemberKind → List ApiItem) :
    Nat → List (String × List String) → List String →
    List (String × List String)
  | 0, level, _ => level
  | r + 1, level, seen =>
      let acc := expandLevel fetch level seen
      level ++ levelsNodes fetch r acc.2 acc.1

/-- All visited nodes of `harvest_files_with_depth`, in visitation order. -/
def visitedNodes (fetch : String → MemberKind → List ApiItem)
    (root : String) (maxDepth : Nat) : List (String × List String) :=
  levelsNodes fetch maxDepth [(root, [])] ["Category:" ++ root]

/-- The titles accepted by the marker/extension filter over the whole
traversal, in encounter order, duplicates included. -/
def harvestAcceptedTitles (fetch : String → MemberKind → List ApiItem)
    (exts : List String) (root : String) (maxDepth : Nat) : List String :=
  (visitedNodes fetch root maxDepth).flatMap
    (fun nd => ((fetch nd.1 MemberKind.file).filter (acceptedItem exts)).map
      (·.title))

/-- Number of pool records whose stored path-segments equal `p`. -/
def countPath (p : List String) (fs : List (String × FileMeta)) : Nat :=
  (fs.filter (fun e => e.2.path_segments = p)).length

/-! ## GlobalSelector (`build_global_selection`) -/

/-- Model of `str.casefold` as used for title ordering (ASCII-faithful). -/
def caseFold (s : String) : String := lowerStr s

/-- One entry of the flattened pool: `(key, root, title, meta)`. -/
abbrev PoolEntry := String × String × String × FileMeta

/-- One root's slot in `grand_plan`: `(root, files_unique, raw_membership)`. -/
abbrev PlanEntry := String × List (String × FileMeta) × (List String → Nat)

def rootOf (x : PoolEntry) : String := x.2.1

def titleOf (x : PoolEntry) : String := x.2.2.1

def metaOf (x : PoolEntry) : FileMeta := x.2.2.2

/-- The `(root, title)` identity of a pool entry. -/
def pairOf (x : PoolEntry) : String × String := (rootOf x, titleOf x)

/-- Model of the dict comprehension building `root_map` followed by
`root_map.get(root, {})`: a later duplicate root overrides an earlier one, so
look the root up from the right. -/
def lookupLastPool (plan : List PlanEntry) (root : String) :
    List (String × FileMeta) :=
  ((plan.reverse.find? (fun e => e.1 = root)).map (fun e => e.2.1)).getD []

/-- Model of `fu[t]`: dict lookup in one root's unique pool. -/
def lookupMeta (fu : List (String × FileMeta)) (t : String) : FileMeta :=
  ((fu.find? (fun p => p.1 = t)).map (·.2)).getD default

/-- Comparison used by `pool.sort(key=lambda x: x[0])`: compare the
pre-computed casefolded keys. Python's sort is stable, and stable sorts of a
total preorder agree, so the stable `insertionSort` models it exactly. -/
def keyLe (x y : PoolEntry) : Prop := lexLe x.1.data y.1.data = true

instance : DecidableRel keyLe := fun x y =>
  inferInstanceAs (Decidable (_ = true))

/-- Comparison used by `sorted(fu.keys(), key=str.casefold)`. -/
def titleLe (a b : String) : Prop :=
  lexLe (caseFold a).data (caseFold b).data = true

instance : DecidableRel titleLe := fun a b =>
  inferInstanceAs (Decidable (_ = true))

/-- Build the flat ordered pool of `build_global_selection`:
`"title"` sorts every `(casefold, root, title, meta)` tuple of every root by
the casefolded title; any other order value takes the `"root_then_title"`
branch, visiting `normalized_roots` in the caller-supplied order and sorting
titles case-insensitively within each root. -/
def flattenPool (plan : List PlanEntry) (normalizedRoots : List String)
    (order : String) : List PoolEntry :=
  if order = "title" then
    List.insertionSort keyLe
      (plan.flatMap
        (fun e => e.2.1.map (fun tm => (caseFold tm.1, e.1, tm.1, tm.2))))
  else
    normalizedRoots.flatMap (fun root =>
      let fu := lookupLastPool plan root
      (List.insertionSort titleLe (keysOf fu)).map
        (fun t => ("", root, t, lookupMeta fu t)))

/-- The 1-based inclusive slice of `build_global_selection`:
`pool[max(0, (start or 1) - 1) : end]` when either bound is set (`end = None`
meaning "to the end"), the pool unchanged when both are absent. -/
def applySlice {α : Type} (pool : List α) (s e : Option Nat) : List α :=
  if s = none ∧ e = none then pool
  else
    let start := s.getD 1 - 1
    match e with
    | none => pool.drop start
    | some stop => (pool.take stop).drop start

/-- Model of the dict assignment on the inner title dict:
overwrite an existing key in place, otherwise append. -/
def dictInsert : List (String × FileMeta) → String → FileMeta →
    List (String × FileMeta)
  | [], t, m => [(t, m)]
  | p :: rest, t, m =>
      if p.1 = t then (t, m) :: rest else p :: dictInsert rest t m

/-- Model of `setdefault` plus assignment on the outer per-root dict. -/
def regroupInsert : List (String × List (String × FileMeta)) → String →
    String → FileMeta → List (String × List (String × FileMeta))
  | [], r, t, m => [(r, [(t, m)])]
  | e :: rest, r, t, m =>
      if e.1 = r then (e.1, dictInsert e.2 t m) :: rest
      else e :: regroupInsert rest r t m

/-- The `(root, title)` pairs held by a regrouped selection, in order. -/
def pairsOfGroups (acc : List (String × List (String × FileMeta))) :
    List (String × String) :=
  acc.flatMap (fun e => e.2.map (fun p => (e.1, p.1)))

/-- Embedding of `build_global_selection`: 
flatten, remember the pre-slice pool size, slice, regroup by root, and
report `(selected_by_root, total_pool, selected_count)`. -/
def build_global_selection (plan : List PlanEntry)
    (normalizedRoots : List String) (s e : Option Nat) (order : String) :
    List (String × List (String × FileMeta)) × Nat × Nat :=
  let pool := flattenPool plan normalizedRoots order
  let totalPool := pool.length
  let sliced := applySlice pool s e
  let grouped := sliced.foldl
    (fun acc x => regroupInsert acc (rootOf x) (titleOf x) (metaOf x)) []
  (grouped, totalPool, (grouped.map (fun e => e.2.length)).sum)

/-! ## Concrete scenarios used by closed theorems -/

/-- The member listings of the spec's end-to-end scenario: root `Root` with
direct files `File:A.jpg`, `File:B.jpg` and one subcategory `Sub` containing
`File:B.jpg`, `File:C.png`. -/
def scenarioFetch : String → MemberKind → List ApiItem
  | "Root", MemberKind.file =>
      [{ title := "File:A.jpg", pageid := some 1 },
       { title := "File:B.jpg", pageid := some 2 }]
  | "Root", MemberKind.subcat => [{ title := "Category:Sub" }]
  | "Sub", MemberKind.file =>
      [{ title := "File:B.jpg", pageid := some 3 },
       { title := "File:C.png", pageid := some 4 }]
  | _, _ => []

/-- The harvest of the scenario: filter `[".jpg"]`, `max_depth = 1`. -/
def scenarioHarvest : List (String × FileMeta) × (List String → Nat) :=
  harvest_files_with_depth scenarioFetch [".jpg"] "Root" 1

/-- A metadata record carrying only a title, for selector scenarios. -/
def mkMeta (t : String) : FileMeta :=
  { title := t, pageid := none, mid := "", source_category := "",
    path_segments := [] }

/-- The two-root selector scenario of the spec: `R1 = ["b", "a"]`,
`R2 = ["c"]`. -/
def scenarioPlan : List PlanEntry :=
  [("R1", [("b", mkMeta "b"), ("a", mkMeta "a")], fun _ => 0),
   ("R2", [("c", mkMeta "c")], fun _ => 0)]

/-! ## PathSafety (`sanitize_filename`, `sanitize_folder_component`)

The blake2s short hash and `os.path.abspath` are external; they appear as
the `hash` and `absPath` function parameters. -/

/-- The conservative Windows full-path limit of the configuration block. -/
def FULL_PATH_BUDGET : Nat := 250

/-- Characters replaced by underscores (step 1 of `sanitize_filename`). -/
def invalidChars : List Char :=
  ['\"', '#', '%', '&', '\x7b', '\x7d', '\\', '<', '>', '|', ':', '*', '?',
   '/']

/-- Step 1: replace every Windows-illegal character by an underscore. -/
def replaceInvalid (l : List Char) : List Char :=
  l.map (fun c => if c ∈ invalidChars then '_' else c)

/-- Model of Python `rstrip(' .')`. -/
def rstripDotSpace (l : List Char) : List Char :=
  (l.reverse.dropWhile (fun c => c == ' ' || c == '.')).reverse

/-- Model of Python `strip('. ')`. -/
def stripDotSpace (l : List Char) : List Char :=
  ((l.dropWhile (fun c => c == ' ' || c == '.')).reverse.dropWhile
    (fun c => c == ' ' || c == '.')).reverse

/-- Model of Python `strip()` (whitespace on both ends). -/
def stripWs (l : List Char) : List Char :=
  ((l.dropWhile Char.isWhitespace).reverse.dropWhile
    Char.isWhitespace).reverse

/-- Position (from the left) of the last `'.'` in `l`, if any. -/
def lastDotIdx (l : List Char) : Option Nat :=
  match l.reverse.findIdx? (fun c => c == '.') with
  | none => none
  | some i => some (l.length - 1 - i)

/-- Model of `os.path.splitext` on a separator-free name: split at the last
dot unless every character before it is itself a dot (then there is no
extension). -/
def splitExt (l : List Char) : List Char × List Char :=
  match lastDotIdx l with
  | none => (l, [])
  | some i =>
      if (l.take i).all (fun c => c == '.') then (l, [])
      else (l.take i, l.drop i)

/-- Windows reserved device stems, compared case-insensitively. -/
def reservedNames : List (List Char) :=
  (["con", "prn", "aux", "nul",
    "com1", "com2", "com3", "com4", "com5", "com6", "com7", "com8", "com9",
    "lpt1", "lpt2", "lpt3", "lpt4", "lpt5", "lpt6", "lpt7", "lpt8",
    "lpt9"]).map String.data

/-- Steps 1-2 of `sanitize_filename`: illegal characters replaced, trailing
dots and spaces stripped. -/
def sanitizeCleaned (filename : List Char) : List Char :=
  rstripDotSpace (replaceInvalid filename)

/-- The extension preserved by `sanitize_filename`. -/
def sanitizeExt (filename : List Char) : List Char :=
  (splitExt (sanitizeCleaned filename)).2

/-- The raw stem before capping. -/
def sanitizeStem0 (filename : List Char) : List Char :=
  (splitExt (sanitizeCleaned filename)).1

/-- Steps 3-4: cap the stem at the per-name limit, then defuse reserved
device stems by appending an underscore. -/
def sanitizeStem (filename : List Char) (maxLen : Nat) : List Char :=
  let stem1 := if (sanitizeCleaned filename).length > maxLen
    then (sanitizeStem0 filename).take
      (max 1 (maxLen - (sanitizeExt filename).length))
    else sanitizeStem0 filename
  if (stripDotSpace stem1).map Char.toLower ∈ reservedNames
    then stem1 ++ ['_'] else stem1

/-- Step 5: the suffix ALWAYS appended before the extension: the identity
marker when a MID is known, otherwise the no-MID marker plus the short hash
of the original raw name. -/
def sanitizeSuffix (hash : List Char → List Char) (original : List Char)
    (mid : Option (List Char)) : List Char :=
  match mid with
  | some m =>
      if stripWs m ≠ [] then '-' :: '-' :: stripWs m
      else "--NO-MID-".data ++ (hash original).take 8
  | none => "--NO-MID-".data ++ (hash original).take 8

/-- Step 6: characters available for the whole name. When a folder is given
this is the full-path budget minus the absolute folder length minus one
separator, floored at suffix + extension + one stem character; otherwise the
per-name cap. -/
def sanitizeAvail (absPath : List Char → List Char)
    (folder : Option (List Char)) (budget : Option Nat)
    (maxLen extLen sufLen : Nat) : Nat :=
  match folder with
  | some f =>
      (max ((budget.getD FULL_PATH_BUDGET : Int) - (absPath f).length - 1)
        ((extLen : Int) + sufLen + 1)).toNat
  | none => maxLen

/-- Embedding of `sanitize_filename(filename, folder, max_length,
full_path_budget, mid)`. -/
def sanitize_filename (hash absPath : List Char → List Char)
    (filename : List Char) (folder : Option (List Char)) (maxLen : Nat)
    (budget : Option Nat) (mid : Option (List Char)) : List Char :=
  let stem := sanitizeStem filename maxLen
  let suffix := sanitizeSuffix hash filename mid
  let ext := sanitizeExt filename
  let avail := sanitizeAvail absPath folder budget maxLen ext.length
    suffix.length
  let stem3 := if stem.length + suffix.length + ext.length > avail
    then stem.take (max 1 (avail - suffix.length - ext.length)) else stem
  stem3 ++ suffix ++ ext

/-- Embedding of `sanitize_folder_component(name, max_len)`. -/
def sanitize_folder_component (hash : String → String) (name : String)
    (maxLen : Nat) : String :=
  let cleaned := rstripDotSpace (replaceInvalid name.data)
  let shortened := if cleaned.length > maxLen
    then (cleaned.take (maxLen - 10)) ++ "__".data ++
      ((hash ⟨cleaned⟩).data.take 8)
    else cleaned
  if shortened.isEmpty then "NA" else ⟨shortened⟩

/-- String-level wrapper of `sanitize_filename` as called by
`download_file` (defaults `max_length=120`, `full_path_budget` from the
configuration). -/
def sanitizeFilenameStr (hash absPath : String → String) (filename : String)
    (folder : Option String) (maxLen : Nat) (budget : Option Nat)
    (mid : Option String) : String :=
  ⟨sanitize_filename (fun l => (hash ⟨l⟩).data) (fun l => (absPath ⟨l⟩).data)
    filename.data (folder.map (fun f => f.data)) maxLen budget
    (mid.map (fun m => m.data))⟩

/-! ## DownloadLogPipeline
(`download_file`, `append_rows_to_excel_log`, `ensure_folder`,
`perform_downloads`)

The filesystem is modelled as the sets of folders and file paths created;
the Excel log sink as an optional list of rows (one sheet, fixed schema);
printing as a list of structured report events. The HTTP fetch, the API URL
resolver, `urllib.parse.quote`, `os.path.abspath` and the short hash are
opaque parameters collected in `DlEnv`. -/

/-- One row of the Excel log, with the fixed column schema. -/
structure LogRow where
  CommonsFileName : String
  CommonsFileURL : String
  MediaInfoID : String
  CommonsConceptURI : String
  CommonsImageURL : String
  SourceCategory : String
  LocalBaseFolder : String
  CommonsCategoryPath : String
  LocalSubFolder : String
  LocalFilename : String
deriving DecidableEq

/-- The dedupe key of the log sink: `("CommonsFileURL", "MediaInfoID")`. -/
def logKey (r : LogRow) : String × String := (r.CommonsFileURL, r.MediaInfoID)

/-- Model of pandas `drop_duplicates(subset=keys, keep="first")`. -/
def dedupKeysFirst (seen : List (String × String)) :
    List LogRow → List LogRow
  | [] => []
  | r :: rest =>
      if logKey r ∈ seen then dedupKeysFirst seen rest
      else r :: dedupKeysFirst (logKey r :: seen) rest

/-- Embedding of `append_rows_to_excel_log`: nothing in dry-run; nothing for
an empty batch; first write stores the rows as-is; later writes replace the
sheet with the key-deduplicated union of previous and new rows. -/
def append_rows_to_excel_log (dry : Bool) (store : Option (List LogRow))
    (rows : List LogRow) : Option (List LogRow) :=
  if dry then store
  else if rows.isEmpty then store
  else
    match store with
    | none => some rows
    | some existing => some (dedupKeysFirst [] (existing ++ rows))

/-- The filesystem-and-sink state threaded through the pipeline. -/
structure World where
  folders : List String
  files : List String
  sink : Option (List LogRow)
deriving DecidableEq

/-- The external capabilities used by the download pipeline. -/
structure DlEnv where
  resolveApi : String → String
  fetchUrl : String → Except String String
  shortHash : String → String
  absPath : String → String
  quote : String → String

/-- Model of Python `a or b` on strings (empty string is falsy). -/
def strOrDefault (s : Option String) (d : String) : String :=
  match s with
  | some t => if t = "" then d else t
  | none => d

/-- Model of `os.path.join` (POSIX separator). -/
def joinPath : List String → String
  | [] => ""
  | [p] => p
  | p :: rest => p ++ "/" ++ joinPath rest

/-- Model of `os.path.relpath(folder, base)` for targets at or under
`base`, composed with the source's mapping of `"."` to `""`. -/
def relPath (folder base : String) : String :=
  if folder = base then ""
  else if (base ++ "/").data.isPrefixOf folder.data then
    ⟨folder.data.drop (base.length + 1)⟩
  else folder

/-- Embedding of `ensure_folder(base, root_segment, path_segments,
create)`: build the nested folder path; create it only when `create` holds
and dry-run is off. -/
def ensure_folder (hash : String → String) (dry : Bool)
    (base root_segment : String) (path_segments : List String)
    (create : Bool) (w : World) : String × World :=
  let parts := (if root_segment ≠ "" then
      [base, sanitize_folder_component hash root_segment 80] else [base]) ++
    path_segments.map (fun p => sanitize_folder_component hash p 80)
  let folder := joinPath parts
  if create && !dry then (folder, { w with folders := folder :: w.folders })
  else (folder, w)

/-- Embedding of `download_file(session, url, folder, filename, mid, title,
dry_run)`. Returns `(final_stored_filename, resolved_upload_url)` plus the
updated world, or the raised transport error. In dry-run it resolves the
URL via the API and touches nothing; with overwrite off and the target
already present it skips the fetch and also resolves via the API. -/
def download_file (env : DlEnv) (overwrite dry : Bool)
    (url folder filename : String) (mid : Option String)
    (title : Option String) (w : World) :
    Except String ((String × String) × World) :=
  let safe_name := sanitizeFilenameStr env.shortHash env.absPath filename
    (some folder) 120 (some FULL_PATH_BUDGET) mid
  let out_path := folder ++ "/" ++ safe_name
  if dry then
    Except.ok ((safe_name,
      env.resolveApi (strOrDefault title ("File:" ++ filename))), w)
  else if !overwrite && decide (out_path ∈ w.files) then
    Except.ok ((safe_name,
      env.resolveApi (strOrDefault title ("File:" ++ filename))), w)
  else
    match env.fetchUrl url with
    | Except.error e => Except.error e
    | Except.ok resolved =>
        let w2 := { w with files := out_path :: w.files }
        let finalUrl :=
          if strStartsWith resolved "https://upload.wikimedia.org/" then
            resolved
          else
            let api := env.resolveApi
              (strOrDefault title ("File:" ++ filename))
            if api ≠ "" then api else resolved
        Except.ok ((safe_name, finalUrl), w2)

/-- One structured console event of `perform_downloads`: a per-item success
line (index, total, title, verb, stored name), a per-item error line, or a
flush notice. -/
inductive Report where
  | item : Nat → Nat → String → String → String → Report
  | failed : Nat → Nat → String → String → Report
  | flushed : Nat → Report
deriving DecidableEq

/-- The loop state of `perform_downloads`. -/
structure PDState where
  idx : Nat
  buffer : List LogRow
  written : Nat
  w : World
  reports : List Report

/-- The body of the `perform_downloads` loop for one `(title, meta)` item:
build the target folder, download (or skip/resolve), buffer the log row and
report progress, flushing the buffer to the sink every `flushN` successes;
a fetch failure is reported and the item skipped. -/
def pdStep (env : DlEnv) (overwrite dry flatten : Bool) (flushN : Nat)
    (root_segment base : String) (total : Nat) (st : PDState)
    (entry : String × FileMeta) : PDState :=
  let idx := st.idx + 1
  let title := entry.1
  let meta := entry.2
  let filename := stripFileColonStr title
  let orig_segments := meta.path_segments
  let commons_category_path := joinPath orig_segments
  let local_segments :=
    if flatten then
      match orig_segments with
      | [] => orig_segments
      | s :: _ => [s]
    else orig_segments
  let fw := ensure_folder env.shortHash dry base root_segment local_segments
    (!dry) st.w
  let folder := fw.1
  let w1 := fw.2
  let subfolder_rel := relPath folder base
  let file_url :=
    "https://commons.wikimedia.org/wiki/Special:FilePath/" ++ filename
  let escaped_url := env.quote file_url
  match download_file env overwrite dry escaped_url folder filename
    (some meta.mid) (some (strOrDefault (some meta.title) title)) w1 with
  | Except.error e =>
      { st with
        idx := idx
        w := w1
        reports := st.reports ++ [Report.failed idx total title e] }
  | Except.ok ((stored_name, upload_url), w2) =>
      let row : LogRow :=
        { CommonsFileName := title
          CommonsFileURL := "https://commons.wikimedia.org/wiki/" ++ title
          MediaInfoID := meta.mid
          CommonsConceptURI :=
            if meta.mid ≠ "" then
              "https://commons.wikimedia.org/entity/" ++ meta.mid
            else ""
          CommonsImageURL := upload_url
          SourceCategory := meta.source_category
          LocalBaseFolder := base
          CommonsCategoryPath := commons_category_path
          LocalSubFolder := subfolder_rel
          LocalFilename := stored_name }
      let buffer1 := st.buffer ++ [row]
      let written1 := st.written + 1
      let verb := if dry then "would save as" else "saved as"
      let reports1 := st.reports ++
        [Report.item idx total title verb stored_name]
      if !dry && decide (flushN ≠ 0) && decide (buffer1.length ≥ flushN) then
        let sink1 := append_rows_to_excel_log dry w2.sink buffer1
        { idx := idx, buffer := [], written := written1,
          w := { w2 with sink := sink1 },
          reports := reports1 ++ [Report.flushed buffer1.length] }
      else
        { idx := idx, buffer := buffer1, written := written1, w := w2,
          reports := reports1 }

/-- Embedding of `perform_downloads(session, root_segment, files,
base_folder, sheet_name, log_flush_rows, flatten_paths)`: iterate the
selected items, then flush any buffered remainder; return
`(written, world, reports)`. -/
def perform_downloads (env : DlEnv) (overwrite dry flatten : Bool)
    (flushN : Nat) (root_segment base : String)
    (files : List (String × FileMeta)) (w : World) :
    Nat × World × List Report :=
  let total := files.length
  let fin := files.foldl
    (pdStep env overwrite dry flatten flushN root_segment base total)
    ⟨0, [], 0, w, []⟩
  if !dry && !fin.buffer.isEmpty then
    let sink1 := append_rows_to_excel_log dry fin.w.sink fin.buffer
    (fin.written, { fin.w with sink := sink1 },
      fin.reports ++ [Report.flushed fin.buffer.length])
  else (fin.written, fin.w, fin.reports)

/-- Title carried by a report (empty for flush notices). -/
def reportTitle : Report → String
  | Report.item _ _ t _ _ => t
  | Report.failed _ _ t _ => t
  | Report.flushed _ => ""

/-- Whether a report is a flush notice. -/
def isFlushed : Report → Bool
  | Report.flushed _ => true
  | _ => false

/-- Whether a report is a per-item success line. -/
def isItemReport : Report → Bool
  | Report.item _ _ _ _ _ => true
  | _ => false

/-- The rows durably held by the pipeline at a loop boundary: the sink's
table plus the unflushed buffer. -/
def rowsState (st : PDState) : List LogRow :=
  st.w.sink.getD [] ++ st.buffer

/-- The URL prefix of the `CommonsFileURL` column. -/
def wikiUrlPfx : String := "https://commons.wikimedia.org/wiki/"

/-! ## Concrete pipeline scenarios used by closed theorems -/

/-- A deterministic stand-in for the blake2s hex digest. -/
def cxHash : List Char → List Char := fun _ => "0123456789abcdef".data

/-- A 60-character absolute folder. -/
def cxFolder : List Char := List.replicate 60 'd'

/-- Environment where every fetch and every API resolution yields the same
asset URL (e.g. two titles that are file redirects of one asset). -/
def c6Env : DlEnv :=
  { resolveApi := fun _ => "https://upload.wikimedia.org/u.jpg"
    fetchUrl := fun _ => Except.ok "https://upload.wikimedia.org/u.jpg"
    shortHash := fun _ => "0123456789abcdef"
    absPath := fun s => s
    quote := fun s => s }

/-- Two distinct titles (hence two distinct page URLs) for the same asset. -/
def c6Files : List (String × FileMeta) :=
  [("File:a.jpg", mkMeta "File:a.jpg"), ("File:b.jpg", mkMeta "File:b.jpg")]

/-- Empty filesystem and absent log sink. -/
def c6World : World := ⟨[], [], none⟩

/-- First pipeline run over the selection. -/
def c6Run1 : Nat × World × List Report :=
  perform_downloads c6Env false false false 10 "cats" "dwnlds" c6Files
    c6World

/-- Second pipeline run over the unchanged selection, overwrite disabled. -/
def c6Run2 : Nat × World × List Report :=
  perform_downloads c6Env false false false 10 "cats" "dwnlds" c6Files
    c6Run1.2.1

/-- Environment for the failure-tolerance witness: the fetch of `b.jpg`
raises, the others succeed. -/
def c9Env : DlEnv :=
  { resolveApi := fun _ => "https://upload.wikimedia.org/ok.jpg"
    fetchUrl := fun u =>
      if strEndsWith u "b.jpg" then Except.error "HTTP 404"
      else Except.ok "https://upload.wikimedia.org/ok.jpg"
    shortHash := fun _ => "0123456789abcdef"
    absPath := fun s => s
    quote := fun s => s }

/-- Three items of which the middle one will fail to fetch. -/
def c9Files : List (String × FileMeta) :=
  [("File:a.jpg", mkMeta "File:a.jpg"), ("File:b.jpg", mkMeta "File:b.jpg"),
   ("File:c.jpg", mkMeta "File:c.jpg")]

end Wmc

namespace Wmc

/-! ## C1: end-to-end traversal scenario -/

/-- C1: in the spec's end-to-end scenario (root `Root` with files
`File:A.jpg`, `File:B.jpg`; subcategory `Sub` at depth 1 with `File:B.jpg`,
`File:C.png`; extension filter `[".jpg"]`; `max_depth = 1`) the unique pool
holds exactly `File:A.jpg` and `File:B.jpg`, both with origin
`Category:Root` and empty path-segments, while `raw_counts` maps `()` to 2
and `("Sub",)` to 2: `File:C.png` is dropped by the filter and the duplicate
`File:B.jpg` under `Sub` is dropped from the pool but still counted raw. -/
theorem harvest_scenario_first_hit_dedup :
    scenarioHarvest.1 =
      [("File:A.jpg",
        { title := "File:A.jpg", pageid := some 1, mid := "M1",
          source_category := "Category:Root", path_segments := [] }),
       ("File:B.jpg",
        { title := "File:B.jpg", pageid := some 2, mid := "M2",
          source_category := "Category:Root", path_segments := [] })] ∧
    scenarioHarvest.2 [] = 2 ∧ scenarioHarvest.2 ["Sub"] = 2 := by
  refine ⟨?_, ?_, ?_⟩ <;> decide

/-! ## C3: slicing boundary behaviour -/

theorem applySlice_start_one {α : Type} (pool : List α) :
    applySlice pool (some 1) none = pool := by
  simp [applySlice]

theorem applySlice_none_none {α : Type} (pool : List α) :
    applySlice pool none none = pool := by
  simp [applySlice]

theorem applySlice_past_end {α : Type} (pool : List α) (e : Option Nat) :
    applySlice pool (some (pool.length + 1)) e = [] := by
  unfold applySlice
  rw [if_neg (by simp)]
  cases e with
  | none => simp
  | some stop =>
      refine List.drop_eq_nil_of_le ?_
      have h1 : (pool.take stop).length ≤ pool.length := by
        rw [List.length_take]; exact min_le_right _ _
      simpa using h1

theorem applySlice_two_two {α : Type} :
    ∀ (pool : List α) (h2 : 1 < pool.length),
      applySlice pool (some 2) (some 2) = [pool.get ⟨1, h2⟩]
  | _ :: _ :: _, _ => by simp [applySlice]
  | [], h => by simp at h
  | [_], h => by simp at h

/-- C3: for every flattened pool of size `P` (any ordering mode), the
1-based inclusive slice selects all `P` entries for `start = 1, end = None`
and for both bounds absent; selects zero entries for `start = P + 1` with
any end; selects exactly the second entry for `start = 2, end = 2`; and
`build_global_selection` reports `P` as the pre-slice pool size for every
slice. -/
theorem build_global_selection_slice_boundaries
    (plan : List PlanEntry) (roots : List String) (order : String)
    (e s2 e2 : Option Nat)
    (h2 : 1 < (flattenPool plan roots order).length) :
    applySlice (flattenPool plan roots order) (some 1) none =
        flattenPool plan roots order ∧
    applySlice (flattenPool plan roots order) none none =
        flattenPool plan roots order ∧
    applySlice (flattenPool plan roots order)
        (some ((flattenPool plan roots order).length + 1)) e = [] ∧
    applySlice (flattenPool plan roots order) (some 2) (some 2) =
        [(flattenPool plan roots order).get ⟨1, h2⟩] ∧
    (build_global_selection plan roots s2 e2 order).2.1 =
        (flattenPool plan roots order).length := by
  exact ⟨applySlice_start_one _, applySlice_none_none _,
    applySlice_past_end _ _, applySlice_two_two _ h2, rfl⟩

/-- Witness for C3 at a concrete two-entry pool. -/
theorem build_global_selection_slice_boundaries_witness :
    applySlice (flattenPool scenarioPlan ["R1", "R2"] "root_then_title")
        (some 2) (some 2) =
      [(flattenPool scenarioPlan ["R1", "R2"] "root_then_title").get
        ⟨1, by decide⟩] :=
  (build_global_selection_slice_boundaries scenarioPlan ["R1", "R2"]
    "root_then_title" none none none (by decide)).2.2.2.1

/-! ## C8: invalid range `end < start` -/

/-- Counterexample to C8: with `start = 5, end = 3` (an invalid range,
`end < start`) `build_global_selection` does not raise any configuration
error — it proceeds normally and returns an empty selection with
`selected_count = 0` (the pool size is still reported); there is no raise
statement on this path in the source. -/
theorem invalid_range_no_error_counterexample :
    build_global_selection scenarioPlan ["R1", "R2"] (some 5) (some 3)
        "root_then_title" = ([], 3, 0) := by
  decide

/-- C8 (amended): for every slice range with `end < start`, the program does
not raise anything: the slice of the flattened pool is empty and
`build_global_selection` proceeds, returning zero selected items. -/
theorem invalid_range_yields_empty_selection
    (plan : List PlanEntry) (roots : List String) (order : String)
    (s e : Nat) (hes : e < s) :
    applySlice (flattenPool plan roots order) (some s) (some e) = [] ∧
    (build_global_selection plan roots (some s) (some e) order).2.2 = 0 := by
  have hslice : applySlice (flattenPool plan roots order)
      (some s) (some e) = [] := by
    unfold applySlice
    rw [if_neg (by simp)]
    refine List.drop_eq_nil_of_le ?_
    exact le_trans ((flattenPool plan roots order).length_take_le e)
      (Nat.le_sub_one_of_lt hes)
  refine ⟨hslice, ?_⟩
  unfold build_global_selection
  simp only [hslice, List.foldl_nil, List.map_nil, List.sum_nil]

/-- Witness for C8 (amended) at `start = 5, end = 3`. -/
theorem invalid_range_yields_empty_selection_witness :
    applySlice (flattenPool scenarioPlan ["R1", "R2"] "root_then_title")
        (some 5) (some 3) = [] ∧
    (build_global_selection scenarioPlan ["R1", "R2"] (some 5) (some 3)
        "root_then_title").2.2 = 0 :=
  invalid_range_yields_empty_selection scenarioPlan ["R1", "R2"]
    "root_then_title" 5 3 (by decide)

/-! ## Order-theoretic facts about the comparison used for sorting -/

theorem lexLe_cons_iff (x y : Char) (xs ys : List Char) :
    lexLe (x :: xs) (y :: ys) = true ↔
      x < y ∨ (x = y ∧ lexLe xs ys = true) := by
  by_cases h1 : x < y
  · simp [lexLe, h1]
  · by_cases h2 : x = y
    · simp [lexLe, h1, h2]
    · simp [lexLe, h1, h2]

theorem lexLe_total : ∀ a b : List Char, lexLe a b = true ∨ lexLe b a = true
  | [], _ => Or.inl rfl
  | _ :: _, [] => Or.inr rfl
  | x :: xs, y :: ys => by
      rcases lt_trichotomy x y with h | h | h
      · exact Or.inl ((lexLe_cons_iff x y xs ys).mpr (Or.inl h))
      · rcases lexLe_total xs ys with ih | ih
        · exact Or.inl ((lexLe_cons_iff x y xs ys).mpr (Or.inr ⟨h, ih⟩))
        · exact Or.inr ((lexLe_cons_iff y x ys xs).mpr (Or.inr ⟨h.symm, ih⟩))
      · exact Or.inr ((lexLe_cons_iff y x ys xs).mpr (Or.inl h))

theorem lexLe_trans : ∀ a b c : List Char,
    lexLe a b = true → lexLe b c = true → lexLe a c = true
  | [], _, _, _, _ => rfl
  | _ :: _, [], _, h1, _ => by simp [lexLe] at h1
  | _ :: _, _ :: _, [], _, h2 => by simp [lexLe] at h2
  | x :: xs, y :: ys, z :: zs, h1, h2 => by
      rcases (lexLe_cons_iff x y xs ys).mp h1 with hxy | ⟨hxy, hxs⟩
      · rcases (lexLe_cons_iff y z ys zs).mp h2 with hyz | ⟨hyz, _⟩
        · exact (lexLe_cons_iff x z xs zs).mpr (Or.inl (lt_trans hxy hyz))
        · exact (lexLe_cons_iff x z xs zs).mpr (Or.inl (hyz ▸ hxy))
      · rcases (lexLe_cons_iff y z ys zs).mp h2 with hyz | ⟨hyz, hys⟩
        · exact (lexLe_cons_iff x z xs zs).mpr (Or.inl (hxy ▸ hyz))
        · exact (lexLe_cons_iff x z xs zs).mpr
            (Or.inr ⟨hxy.trans hyz, lexLe_trans xs ys zs hxs hys⟩)

instance : IsTotal String titleLe := ⟨fun _ _ => lexLe_total _ _⟩

instance : IsTrans String titleLe := ⟨fun _ _ _ h h₂ => lexLe_trans _ _ _ h h₂⟩

instance : IsTotal PoolEntry keyLe := ⟨fun _ _ => lexLe_total _ _⟩

instance : IsTrans PoolEntry keyLe := ⟨fun _ _ _ h h₂ => lexLe_trans _ _ _ h h₂⟩

/-! ## C4: root-then-title ordering -/

theorem filter_eq_nil_of_flatMap {α β : Type} (l : List α) (g : α → List β)
    (p : β → Bool) (h : ∀ a ∈ l, ∀ x ∈ g a, p x = false) :
    (l.flatMap g).filter p = [] := by
  rw [List.filter_eq_nil]
  intro x hx
  rcases List.mem_flatMap.mp hx with ⟨a, ha, hxa⟩
  simp [h a ha x hxa]

theorem flatMap_filter_single {β : Type} (g : String → List β)
    (p : β → Bool) (r : String) :
    ∀ (roots : List String), roots.Nodup → r ∈ roots →
    (∀ x ∈ g r, p x = true) →
    (∀ r' ∈ roots, r' ≠ r → ∀ x ∈ g r', p x = false) →
    (roots.flatMap g).filter p = g r
  | [], _, hr, _, _ => by simp at hr
  | r0 :: rest, hnd, hr, hkeep, hdrop => by
      rw [List.flatMap_cons, List.filter_append]
      by_cases h0 : r0 = r
      · subst h0
        have hrest : (rest.flatMap g).filter p = [] := by
          refine filter_eq_nil_of_flatMap rest g p (fun a ha x hx => ?_)
          have hne : a ≠ r0 := fun h => (List.nodup_cons.mp hnd).1 (h ▸ ha)
          exact hdrop a (List.mem_cons_of_mem _ ha) hne x hx
        rw [List.filter_eq_self.mpr (fun x hx => hkeep x hx), hrest,
          List.append_nil]
      · have hhead : (g r0).filter p = [] := by
          rw [List.filter_eq_nil]
          intro x hx
          simp [hdrop r0 (List.mem_cons_self r0 rest) h0 x hx]
        have hr' : r ∈ rest := by
          rcases List.mem_cons.mp hr with h | h
          · exact absurd h.symm h0
          · exact h
        rw [hhead, List.nil_append]
        exact flatMap_filter_single g p r rest (List.nodup_cons.mp hnd).2 hr'
          hkeep (fun r' hr'' => hdrop r' (List.mem_cons_of_mem _ hr''))

/-- Per-root flattened segment in the `"root_then_title"` branch. -/
theorem flattenPool_root_then_title (plan : List PlanEntry)
    (roots : List String) :
    flattenPool plan roots "root_then_title" =
      roots.flatMap (fun root =>
        (List.insertionSort titleLe (keysOf (lookupLastPool plan root))).map
          (fun t => ("", root, t, lookupMeta (lookupLastPool plan root) t))) := by
  rw [flattenPool, if_neg (by decide)]

/-- C4: under ordering `root_then_title` the flattened sequence lists roots
in the caller-supplied order (as contiguous blocks, never re-sorted), with
the titles of each root sorted case-insensitively within its block; and in
the concrete scenario (`R1 = ["b", "a"]`, `R2 = ["c"]`, slice 2..3) the
pre-slice order is `[R1:a, R1:b, R2:c]` and the sliced selection is exactly
`[R1:b, R2:c]`. -/
theorem root_then_title_ordering (plan : List PlanEntry)
    (roots : List String) (hnd : roots.Nodup) :
    ((flattenPool plan roots "root_then_title").map rootOf =
      roots.flatMap (fun r =>
        List.replicate (keysOf (lookupLastPool plan r)).length r)) ∧
    (∀ r ∈ roots, ∃ ts : List String,
      List.Perm ts (keysOf (lookupLastPool plan r)) ∧
      List.Sorted titleLe ts ∧
      (flattenPool plan roots "root_then_title").filter
          (fun x => rootOf x == r) =
        ts.map (fun t => ("", r, t, lookupMeta (lookupLastPool plan r) t))) ∧
    flattenPool scenarioPlan ["R1", "R2"] "root_then_title" =
      [("", "R1", "a", mkMeta "a"), ("", "R1", "b", mkMeta "b"),
       ("", "R2", "c", mkMeta "c")] ∧
    applySlice (flattenPool scenarioPlan ["R1", "R2"] "root_then_title")
        (some 2) (some 3) =
      [("", "R1", "b", mkMeta "b"), ("", "R2", "c", mkMeta "c")] := by
  refine ⟨?_, ?_, by decide, by decide⟩
  · rw [flattenPool_root_then_title, List.map_flatMap]
    refine List.flatMap_congr (fun r _ => ?_)
    rw [List.map_map]
    have : (rootOf ∘ fun t =>
        (("", r, t, lookupMeta (lookupLastPool plan r) t) : PoolEntry)) =
        fun _ => r := rfl
    rw [this, List.map_const', List.length_insertionSort]
  · intro r hr
    refine ⟨List.insertionSort titleLe (keysOf (lookupLastPool plan r)),
      List.perm_insertionSort titleLe _, List.sorted_insertionSort titleLe _,
      ?_⟩
    rw [flattenPool_root_then_title]
    refine flatMap_filter_single _ _ r roots hnd hr ?_ ?_
    · intro x hx
      rcases List.mem_map.mp hx with ⟨t, _, rfl⟩
      simp [rootOf]
    · intro r' _ hne x hx
      rcases List.mem_map.mp hx with ⟨t, _, rfl⟩
      simpa [rootOf] using fun h => absurd h hne

/-- Witness for C4: concrete scenario instance of the block-order part. -/
theorem root_then_title_ordering_witness :
    (flattenPool scenarioPlan ["R1", "R2"] "root_then_title").map rootOf =
      ["R1", "R2"].flatMap (fun r =>
        List.replicate (keysOf (lookupLastPool scenarioPlan r)).length r) :=
  (root_then_title_ordering scenarioPlan ["R1", "R2"] (by decide)).1

/-! ## C10: regrouping by root loses nothing -/

theorem applySlice_sublist {α : Type} (pool : List α) (s e : Option Nat) :
    List.Sublist (applySlice pool s e) pool := by
  unfold applySlice
  by_cases h : s = none ∧ e = none
  · rw [if_pos h]
  · rw [if_neg h]
    cases e with
    | none => exact List.drop_sublist _ _
    | some stop =>
        exact (List.drop_sublist _ _).trans (List.take_sublist _ _)

theorem nodup_flatMap_tagged {α β : Type} (key : α → String)
    (tag : β → String) (g : α → List β) :
    ∀ l : List α, (∀ a ∈ l, (g a).Nodup) →
    (∀ a ∈ l, ∀ b ∈ g a, tag b = key a) →
    (l.map key).Nodup → (l.flatMap g).Nodup
  | [], _, _, _ => List.nodup_nil
  | a :: rest, hn, ht, hk => by
      rw [List.flatMap_cons, List.nodup_append]
      refine ⟨hn a (List.mem_cons_self a rest), ?_, ?_⟩
      · exact nodup_flatMap_tagged key tag g rest
          (fun a' ha' => hn a' (List.mem_cons_of_mem _ ha'))
          (fun a' ha' => ht a' (List.mem_cons_of_mem _ ha'))
          (List.nodup_cons.mp hk).2
      · intro x hx hx'
        rcases List.mem_flatMap.mp hx' with ⟨a', ha', hxa'⟩
        have h1 : tag x = key a := ht a (List.mem_cons_self a rest) x hx
        have h2 : tag x = key a' := ht a' (List.mem_cons_of_mem _ ha') x hxa'
        have : key a ∈ rest.map key :=
          List.mem_map.mpr ⟨a', ha', (h1 ▸ h2).symm⟩
        exact (List.nodup_cons.mp hk).1 this

/-- Looked-up pools are pools of the plan, so their keys are nodup. -/
theorem lookupLastPool_keys_nodup (plan : List PlanEntry)
    (hkeys : ∀ pe ∈ plan, (keysOf pe.2.1).Nodup) (r : String) :
    (keysOf (lookupLastPool plan r)).Nodup := by
  unfold lookupLastPool
  cases hf : plan.reverse.find? (fun e => e.1 = r) with
  | none => simp [keysOf]
  | some pe =>
      have hmem : pe ∈ plan.reverse := List.mem_of_find?_eq_some hf
      exact hkeys pe (List.mem_reverse.mp hmem)

/-- Pairwise-distinct `(root, title)` identities of the flattened pool when
the plan's roots are pairwise distinct and each pool is a dict. -/
theorem flattenPool_pairs_nodup (plan : List PlanEntry) (order : String)
    (hroots : (plan.map (fun pe => pe.1)).Nodup)
    (hkeys : ∀ pe ∈ plan, (keysOf pe.2.1).Nodup) :
    ((flattenPool plan (plan.map (fun pe => pe.1)) order).map pairOf).Nodup := by
  by_cases horder : order = "title"
  · rw [flattenPool, if_pos horder]
    have hperm := (List.perm_insertionSort keyLe
      (plan.flatMap (fun e => e.2.1.map
        (fun tm => (caseFold tm.1, e.1, tm.1, tm.2))))).map pairOf
    refine hperm.nodup_iff.mpr ?_
    rw [List.map_flatMap]
    have heq : ∀ pe : PlanEntry,
        (pe.2.1.map (fun tm => ((caseFold tm.1, pe.1, tm.1, tm.2) : PoolEntry))).map
          pairOf = pe.2.1.map (fun tm => (pe.1, tm.1)) := by
      intro pe
      rw [List.map_map]
      rfl
    simp only [heq]
    refine nodup_flatMap_tagged (fun pe => pe.1) (fun b => b.1)
      (fun pe => pe.2.1.map (fun tm => (pe.1, tm.1))) plan ?_ ?_ hroots
    · intro pe hpe
      show (pe.2.1.map (fun tm => ((pe.1, tm.1) : String × String))).Nodup
      have hkk : pe.2.1.map (fun tm => ((pe.1, tm.1) : String × String)) =
          (keysOf pe.2.1).map (fun t => (pe.1, t)) := by
        rw [keysOf, List.map_map]; rfl
      rw [hkk]
      exact (hkeys pe hpe).map
        (fun t₁ t₂ h => congrArg Prod.snd h)
    · intro pe _ b hb
      rcases List.mem_map.mp hb with ⟨tm, _, rfl⟩
      rfl
  · rw [flattenPool, if_neg horder, List.map_flatMap]
    have heq : ∀ r : String,
        ((List.insertionSort titleLe (keysOf (lookupLastPool plan r))).map
          (fun t => (("", r, t, lookupMeta (lookupLastPool plan r) t) :
            PoolEntry))).map pairOf =
        (List.insertionSort titleLe (keysOf (lookupLastPool plan r))).map
          (fun t => (r, t)) := by
      intro r
      rw [List.map_map]
      rfl
    simp only [heq]
    refine nodup_flatMap_tagged id (fun b => b.1)
      (fun r => (List.insertionSort titleLe
        (keysOf (lookupLastPool plan r))).map (fun t => (r, t)))
      (plan.map (fun pe => pe.1)) ?_ ?_ (by simpa using hroots)
    · intro r _
      show ((List.insertionSort titleLe (keysOf (lookupLastPool plan r))).map
        (fun t => ((r, t) : String × String))).Nodup
      refine List.Nodup.map (fun t₁ t₂ h => congrArg Prod.snd h) ?_
      exact (List.perm_insertionSort titleLe _).nodup_iff.mpr
        (lookupLastPool_keys_nodup plan hkeys r)
    · intro r _ b hb
      rcases List.mem_map.mp hb with ⟨t, _, rfl⟩
      rfl

theorem dictInsert_keys_of_mem (m : FileMeta) :
    ∀ (d : List (String × FileMeta)) (t : String), t ∈ keysOf d →
      keysOf (dictInsert d t m) = keysOf d
  | [], t, h => by simp [keysOf] at h
  | p :: rest, t, h => by
      by_cases hp : p.1 = t
      · rw [dictInsert, if_pos hp]
        show t :: keysOf rest = p.1 :: keysOf rest
        rw [hp]
      · rw [dictInsert, if_neg hp]
        have ht : t ∈ keysOf rest := by
          rcases List.mem_cons.mp (show t ∈ p.1 :: keysOf rest from h)
            with h' | h'
          · exact absurd h'.symm hp
          · exact h'
        show p.1 :: keysOf (dictInsert rest t m) = p.1 :: keysOf rest
        rw [dictInsert_keys_of_mem m rest t ht]

theorem dictInsert_of_not_mem (m : FileMeta) :
    ∀ (d : List (String × FileMeta)) (t : String), t ∉ keysOf d →
      dictInsert d t m = d ++ [(t, m)]
  | [], t, _ => rfl
  | p :: rest, t, h => by
      have hp : ¬p.1 = t := fun hc =>
        h (show t ∈ p.1 :: keysOf rest from
          List.mem_cons.mpr (Or.inl hc.symm))
      rw [dictInsert, if_neg hp, dictInsert_of_not_mem m rest t
        (fun hc => h (show t ∈ p.1 :: keysOf rest from
          List.mem_cons.mpr (Or.inr hc)))]
      rfl

theorem pairsOfGroups_cons (e : String × List (String × FileMeta))
    (rest : List (String × List (String × FileMeta))) :
    pairsOfGroups (e :: rest) =
      e.2.map (fun p => (e.1, p.1)) ++ pairsOfGroups rest := rfl

theorem pairs_head_eq (e : String × List (String × FileMeta)) :
    e.2.map (fun p => (e.1, p.1)) = (keysOf e.2).map (fun t => (e.1, t)) := by
  rw [keysOf, List.map_map]
  rfl

theorem pairs_fst_mem (r t : String) :
    ∀ acc : List (String × List (String × FileMeta)),
      (r, t) ∈ pairsOfGroups acc → r ∈ acc.map (fun e => e.1) := by
  intro acc h
  rcases List.mem_flatMap.mp h with ⟨e, he, hpe⟩
  rcases List.mem_map.mp hpe with ⟨p, _, hp⟩
  have : r = e.1 := congrArg Prod.fst hp.symm
  exact List.mem_map.mpr ⟨e, he, this.symm⟩

theorem regroupInsert_outer_keys (r t : String) (m : FileMeta) :
    ∀ acc : List (String × List (String × FileMeta)),
      (regroupInsert acc r t m).map (fun e => e.1) =
        if r ∈ acc.map (fun e => e.1) then acc.map (fun e => e.1)
        else acc.map (fun e => e.1) ++ [r]
  | [] => by simp [regroupInsert]
  | e :: rest => by
      by_cases hr : e.1 = r
      · rw [regroupInsert, if_pos hr]
        simp [hr]
      · rw [regroupInsert, if_neg hr]
        have := regroupInsert_outer_keys r t m rest
        by_cases hmem : r ∈ rest.map (fun e => e.1)
        · rw [if_pos hmem] at this
          simp only [List.map_cons, this]
          rw [if_pos (by simp [hmem])]
        · rw [if_neg hmem] at this
          simp only [List.map_cons, this]
          rw [if_neg (by
            rw [List.mem_cons]
            rintro (h | h)
            · exact hr h.symm
            · exact hmem h)]
          rfl

theorem pairsOfGroups_regroupInsert_mem (r t : String) (m : FileMeta) :
    ∀ acc : List (String × List (String × FileMeta)),
      (acc.map (fun e => e.1)).Nodup → (r, t) ∈ pairsOfGroups acc →
      pairsOfGroups (regroupInsert acc r t m) = pairsOfGroups acc
  | [], _, h => by simp [pairsOfGroups] at h
  | e :: rest, hnd, h => by
      rw [List.map_cons, List.nodup_cons] at hnd
      by_cases hr : e.1 = r
      · rw [regroupInsert, if_pos hr]
        have ht : t ∈ keysOf e.2 := by
          rcases List.mem_append.mp
            (by rw [pairsOfGroups_cons] at h; exact h) with hh | hh
          · rcases List.mem_map.mp hh with ⟨p, hp, hpp⟩
            have hpt : p.1 = t := congrArg Prod.snd hpp
            exact hpt ▸ List.mem_map.mpr ⟨p, hp, rfl⟩
          · exfalso
            have hmem := pairs_fst_mem r t rest hh
            exact hnd.1 (hr ▸ hmem)
        rw [pairsOfGroups_cons, pairsOfGroups_cons, pairs_head_eq,
          pairs_head_eq]
        rw [show keysOf (dictInsert e.2 t m) = keysOf e.2 from
          dictInsert_keys_of_mem m e.2 t ht]
      · rw [regroupInsert, if_neg hr]
        have h' : (r, t) ∈ pairsOfGroups rest := by
          rcases List.mem_append.mp
            (by rw [pairsOfGroups_cons] at h; exact h) with hh | hh
          · exfalso
            rcases List.mem_map.mp hh with ⟨p, _, hpp⟩
            exact hr (congrArg Prod.fst hpp)
          · exact hh
        rw [pairsOfGroups_cons, pairsOfGroups_cons,
          pairsOfGroups_regroupInsert_mem r t m rest hnd.2 h']

theorem pairsOfGroups_regroupInsert_not_mem (r t : String) (m : FileMeta) :
    ∀ acc : List (String × List (String × FileMeta)),
      (r, t) ∉ pairsOfGroups acc →
      List.Perm (pairsOfGroups (regroupInsert acc r t m))
        ((r, t) :: pairsOfGroups acc)
  | [], _ => by simp [regroupInsert, pairsOfGroups]
  | ⟨e1, ed⟩ :: rest, h => by
      by_cases hr : e1 = r
      · subst hr
        rw [regroupInsert, if_pos rfl]
        have ht : t ∉ keysOf ed := by
          intro hc
          rcases List.mem_map.mp hc with ⟨p, hp, hpt⟩
          refine h ?_
          rw [pairsOfGroups_cons]
          exact List.mem_append.mpr
            (Or.inl (List.mem_map.mpr ⟨p, hp, by rw [hpt]⟩))
        rw [pairsOfGroups_cons, pairsOfGroups_cons,
          dictInsert_of_not_mem m ed t ht]
        show (((ed ++ [(t, m)]).map fun p => (e1, p.1)) ++
            pairsOfGroups rest).Perm _
        rw [List.map_append, List.append_assoc]
        exact List.perm_middle
      · rw [regroupInsert, if_neg hr]
        have h' : (r, t) ∉ pairsOfGroups rest := by
          intro hc
          refine h ?_
          rw [pairsOfGroups_cons]
          exact List.mem_append.mpr (Or.inr hc)
        rw [pairsOfGroups_cons, pairsOfGroups_cons]
        exact (List.Perm.append_left _
          (pairsOfGroups_regroupInsert_not_mem r t m rest h')).trans
          List.perm_middle

/-- Folding the regroup step over entries with pairwise-distinct identities
grows the stored pair count by exactly the number of entries. -/
theorem fold_regroup_length :
    ∀ (xs : List PoolEntry) (acc : List (String × List (String × FileMeta))),
      (acc.map (fun e => e.1)).Nodup → (xs.map pairOf).Nodup →
      (∀ x ∈ xs, pairOf x ∉ pairsOfGroups acc) →
      (pairsOfGroups (xs.foldl
        (fun acc x => regroupInsert acc (rootOf x) (titleOf x) (metaOf x))
        acc)).length = (pairsOfGroups acc).length + xs.length
  | [], _, _, _, _ => by simp
  | x :: rest, acc, hout, hnd, hdisj => by
      rw [List.map_cons, List.nodup_cons] at hnd
      obtain ⟨hxnot, hndrest⟩ := hnd
      rw [List.foldl_cons]
      have hx : pairOf x ∉ pairsOfGroups acc :=
        hdisj x (List.mem_cons_self x rest)
      have hperm := pairsOfGroups_regroupInsert_not_mem (rootOf x)
        (titleOf x) (metaOf x) acc hx
      have hout' : ((regroupInsert acc (rootOf x) (titleOf x)
          (metaOf x)).map (fun e => e.1)).Nodup := by
        rw [regroupInsert_outer_keys]
        by_cases hmem : rootOf x ∈ acc.map (fun e => e.1)
        · rw [if_pos hmem]; exact hout
        · rw [if_neg hmem, List.nodup_append]
          refine ⟨hout, List.nodup_singleton _, ?_⟩
          intro a ha hb
          rcases List.mem_singleton.mp hb with rfl
          exact hmem ha
      have hdisj' : ∀ y ∈ rest, pairOf y ∉
          pairsOfGroups (regroupInsert acc (rootOf x) (titleOf x)
            (metaOf x)) := by
        intro y hy hc
        rcases List.mem_cons.mp (hperm.mem_iff.mp hc) with hc' | hc'
        · exact hxnot (List.mem_map.mpr ⟨y, hy, hc'⟩)
        · exact hdisj y (List.mem_cons_of_mem _ hy) hc'
      rw [fold_regroup_length rest _ hout' hndrest hdisj',
        hperm.length_eq]
      simp only [List.length_cons]
      omega

theorem pairsOfGroups_length (acc : List (String × List (String × FileMeta))) :
    (pairsOfGroups acc).length = (acc.map (fun e => e.2.length)).sum := by
  rw [pairsOfGroups, List.length_flatMap]
  congr 1
  refine List.map_congr_left (fun e _ => ?_)
  simp

/-- C10: when the plan's root names are pairwise distinct (each pool being a
dict, i.e. nodup keys), the selected count reported by
`build_global_selection` — the sum over roots of the regrouped title-map
sizes — equals the length of the sliced flat sequence: regrouping drops or
merges nothing. -/
theorem regrouping_preserves_selected_count (plan : List PlanEntry)
    (s e : Option Nat) (order : String)
    (hroots : (plan.map (fun pe => pe.1)).Nodup)
    (hkeys : ∀ pe ∈ plan, (keysOf pe.2.1).Nodup) :
    (build_global_selection plan (plan.map (fun pe => pe.1)) s e order).2.2 =
      (applySlice (flattenPool plan (plan.map (fun pe => pe.1)) order)
        s e).length := by
  have hpairs : ((applySlice (flattenPool plan
      (plan.map (fun pe => pe.1)) order) s e).map pairOf).Nodup := by
    refine List.Nodup.sublist ?_
      (flattenPool_pairs_nodup plan order hroots hkeys)
    exact (applySlice_sublist _ s e).map pairOf
  have hcount := fold_regroup_length
    (applySlice (flattenPool plan (plan.map (fun pe => pe.1)) order) s e)
    [] (by simp) hpairs (by simp [pairsOfGroups])
  rw [build_global_selection]
  simp only
  rw [← pairsOfGroups_length, hcount]
  simp [pairsOfGroups]

/-- Witness for C10 at the concrete two-root scenario. -/
theorem regrouping_preserves_selected_count_witness :
    (build_global_selection scenarioPlan
        (scenarioPlan.map (fun pe => pe.1)) (some 2) (some 3)
        "root_then_title").2.2 =
      (applySlice (flattenPool scenarioPlan
        (scenarioPlan.map (fun pe => pe.1)) "root_then_title")
        (some 2) (some 3)).length :=
  regrouping_preserves_selected_count scenarioPlan (some 2) (some 3)
    "root_then_title" (by decide) (by decide)

/-! ## C2: traversal invariants -/

theorem foldl_stepNode_false (fetch : String → MemberKind → List ApiItem)
    (exts : List String) :
    ∀ (level : List (String × List String)) (seen : List String)
      (st : HState) (nxt : List (String × List String)),
      level.foldl (stepNode fetch exts false) (seen, st, nxt) =
        (seen, level.foldl (harvestNode fetch exts) st, nxt)
  | [], _, _, _ => rfl
  | node :: rest, seen, st, nxt => by
      rw [List.foldl_cons, List.foldl_cons]
      exact foldl_stepNode_false fetch exts rest seen
        (harvestNode fetch exts st node) nxt

theorem foldl_stepNode_true (fetch : String → MemberKind → List ApiItem)
    (exts : List String) :
    ∀ (level : List (String × List String)) (seen : List String)
      (st : HState) (nxt : List (String × List String)),
      level.foldl (stepNode fetch exts true) (seen, st, nxt) =
        ((level.foldl (expandNode fetch) (seen, nxt)).1,
         level.foldl (harvestNode fetch exts) st,
         (level.foldl (expandNode fetch) (seen, nxt)).2)
  | [], _, _, _ => rfl
  | node :: rest, seen, st, nxt => by
      rw [List.foldl_cons, List.foldl_cons, List.foldl_cons]
      exact foldl_stepNode_true fetch exts rest
        (expandNode fetch (seen, nxt) node).1
        (harvestNode fetch exts st node)
        (expandNode fetch (seen, nxt) node).2

/-- The level recursion equals one flat fold of `harvestNode` over the
visited nodes in BFS order. -/
theorem harvestLevels_eq_foldl (fetch : String → MemberKind → List ApiItem)
    (exts : List String) :
    ∀ (r : Nat) (level : List (String × List String)) (seen : List String)
      (st : HState),
      harvestLevels fetch exts r level seen st =
        (levelsNodes fetch r level seen).foldl (harvestNode fetch exts) st
  | 0, level, seen, st => by
      rw [harvestLevels, levelsNodes, processLevel,
        foldl_stepNode_false fetch exts level seen st []]
  | r + 1, level, seen, st => by
      rw [harvestLevels, levelsNodes]
      simp only [processLevel, foldl_stepNode_true fetch exts level seen st []]
      rw [List.foldl_append]
      exact harvestLevels_eq_foldl fetch exts r _ _ _

theorem countPath_append (p : List String) (fs : List (String × FileMeta))
    (gs : List (String × FileMeta)) :
    countPath p (fs ++ gs) = countPath p fs + countPath p gs := by
  rw [countPath, countPath, countPath, List.filter_append,
    List.length_append]

theorem countPath_insertItem (p : List String) (exts : List String)
    (cat : String) (q : List String) (fs : List (String × FileMeta))
    (item : ApiItem) :
    countPath p (insertItem exts cat q fs item) ≤
      countPath p fs + (if p = q then 1 else 0) := by
  rw [insertItem]
  by_cases ha : acceptedItem exts item
  · rw [if_pos ha]
    by_cases hm : item.title ∈ keysOf fs
    · rw [if_pos hm]; omega
    · rw [if_neg hm, countPath_append]
      by_cases hpq : p = q
      · simp [countPath, hpq]
      · have hzero : countPath p [(item.title,
            { title := item.title, pageid := item.pageid,
              mid := midOfPageid item.pageid,
              source_category := "Category:" ++ cat,
              path_segments := q })] = 0 := by
          simp [countPath, Ne.symm hpq]
        omega
  · rw [if_neg ha]; omega

theorem countPath_foldl_items (p : List String) (exts : List String)
    (cat : String) (q : List String) :
    ∀ (items : List ApiItem) (fs : List (String × FileMeta)),
      countPath p (items.foldl (insertItem exts cat q) fs) ≤
        countPath p fs + (if p = q then items.length else 0)
  | [], fs => by simp
  | item :: rest, fs => by
      rw [List.foldl_cons]
      have h1 := countPath_foldl_items p exts cat q rest
        (insertItem exts cat q fs item)
      have h2 := countPath_insertItem p exts cat q fs item
      by_cases hpq : p = q <;> simp [hpq] at h1 h2 ⊢ <;> omega

theorem harvestNode_raw (fetch : String → MemberKind → List ApiItem)
    (exts : List String) (st : HState) (node : String × List String)
    (p : List String) :
    (harvestNode fetch exts st node).raw p =
      st.raw p + (if p = node.2 then
        (fetch node.1 MemberKind.file).length else 0) := by
  rw [harvestNode]
  show bumpRaw st.raw node.2 _ p = _
  rw [bumpRaw]
  by_cases hpq : p = node.2 <;> simp [hpq]

theorem raw_le_of_harvestNode (fetch : String → MemberKind → List ApiItem)
    (exts : List String) (st : HState) (node : String × List String)
    (hinv : ∀ p, countPath p st.files ≤ st.raw p) (p : List String) :
    countPath p (harvestNode fetch exts st node).files ≤
      (harvestNode fetch exts st node).raw p := by
  rw [harvestNode_raw]
  have h1 : countPath p (harvestNode fetch exts st node).files ≤
      countPath p st.files + (if p = node.2 then
        (fetch node.1 MemberKind.file).length else 0) :=
    countPath_foldl_items p exts node.1 node.2 _ st.files
  have h2 := hinv p
  omega

theorem raw_le_of_foldl (fetch : String → MemberKind → List ApiItem)
    (exts : List String) :
    ∀ (nodes : List (String × List String)) (st : HState),
      (∀ p, countPath p st.files ≤ st.raw p) →
      ∀ p, countPath p (nodes.foldl (harvestNode fetch exts) st).files ≤
        (nodes.foldl (harvestNode fetch exts) st).raw p
  | [], _, hinv, p => hinv p
  | node :: rest, st, hinv, p => by
      rw [List.foldl_cons]
      exact raw_le_of_foldl fetch exts rest _
        (raw_le_of_harvestNode fetch exts st node hinv) p

theorem keysOf_append (fs gs : List (String × FileMeta)) :
    keysOf (fs ++ gs) = keysOf fs ++ keysOf gs := by
  rw [keysOf, keysOf, keysOf, List.map_append]

theorem keysOf_insertItem_mem (exts : List String) (cat : String)
    (q : List String) (fs : List (String × FileMeta)) (item : ApiItem)
    (t : String) :
    t ∈ keysOf (insertItem exts cat q fs item) ↔
      t ∈ keysOf fs ∨ (acceptedItem exts item = true ∧ t = item.title) := by
  rw [insertItem]
  by_cases ha : acceptedItem exts item
  · rw [if_pos ha]
    by_cases hm : item.title ∈ keysOf fs
    · rw [if_pos hm]
      constructor
      · exact fun h => Or.inl h
      · rintro (h | ⟨_, rfl⟩)
        · exact h
        · exact hm
    · rw [if_neg hm, keysOf_append]
      rw [List.mem_append]
      constructor
      · rintro (h | h)
        · exact Or.inl h
        · exact Or.inr ⟨ha, List.mem_singleton.mp h⟩
      · rintro (h | ⟨_, rfl⟩)
        · exact Or.inl h
        · exact Or.inr (List.mem_singleton.mpr rfl)
  · rw [if_neg ha]
    simp [ha]

theorem keysOf_insertItem_nodup (exts : List String) (cat : String)
    (q : List String) (fs : List (String × FileMeta)) (item : ApiItem)
    (hnd : (keysOf fs).Nodup) :
    (keysOf (insertItem exts cat q fs item)).Nodup := by
  rw [insertItem]
  by_cases ha : acceptedItem exts item
  · rw [if_pos ha]
    by_cases hm : item.title ∈ keysOf fs
    · rw [if_pos hm]; exact hnd
    · rw [if_neg hm, keysOf_append, List.nodup_append]
      refine ⟨hnd, List.nodup_singleton _, ?_⟩
      intro a ha' hb
      rcases List.mem_singleton.mp hb with rfl
      exact hm ha'
  · rw [if_neg ha]; exact hnd

/-- The accepted titles contributed by one member list. -/
theorem keys_foldl_items (exts : List String) (cat : String)
    (q : List String) :
    ∀ (items : List ApiItem) (fs : List (String × FileMeta)),
      (keysOf fs).Nodup →
      (keysOf (items.foldl (insertItem exts cat q) fs)).Nodup ∧
      ∀ t, t ∈ keysOf (items.foldl (insertItem exts cat q) fs) ↔
        t ∈ keysOf fs ∨
          t ∈ (items.filter (acceptedItem exts)).map (·.title)
  | [], fs, hnd => ⟨hnd, fun t => by simp⟩
  | item :: rest, fs, hnd => by
      rw [List.foldl_cons]
      obtain ⟨hnd', hmem'⟩ := keys_foldl_items exts cat q rest
        (insertItem exts cat q fs item)
        (keysOf_insertItem_nodup exts cat q fs item hnd)
      refine ⟨hnd', fun t => ?_⟩
      rw [hmem' t, keysOf_insertItem_mem]
      by_cases ha : acceptedItem exts item
      · rw [List.filter_cons, if_pos ha, List.map_cons, List.mem_cons]
        constructor
        · rintro ((h | ⟨_, rfl⟩) | h)
          · exact Or.inl h
          · exact Or.inr (Or.inl rfl)
          · exact Or.inr (Or.inr h)
        · rintro (h | (h | h))
          · exact Or.inl (Or.inl h)
          · exact Or.inl (Or.inr ⟨ha, h⟩)
          · exact Or.inr h
      · rw [List.filter_cons, if_neg ha]
        constructor
        · rintro ((h | ⟨hc, _⟩) | h)
          · exact Or.inl h
          · exact absurd hc ha
          · exact Or.inr h
        · rintro (h | h)
          · exact Or.inl (Or.inl h)
          · exact Or.inr h

theorem keys_foldl_nodes (fetch : String → MemberKind → List ApiItem)
    (exts : List String) :
    ∀ (nodes : List (String × List String)) (st : HState),
      (keysOf st.files).Nodup →
      (keysOf ((nodes.foldl (harvestNode fetch exts) st)).files).Nodup ∧
      ∀ t, t ∈ keysOf ((nodes.foldl (harvestNode fetch exts) st)).files ↔
        t ∈ keysOf st.files ∨
          t ∈ nodes.flatMap (fun nd =>
            ((fetch nd.1 MemberKind.file).filter
              (acceptedItem exts)).map (·.title))
  | [], _, hnd => ⟨hnd, fun t => by simp⟩
  | node :: rest, st, hnd => by
      rw [List.foldl_cons]
      obtain ⟨hnd1, hmem1⟩ := keys_foldl_items exts node.1 node.2
        (fetch node.1 MemberKind.file) st.files hnd
      obtain ⟨hnd2, hmem2⟩ := keys_foldl_nodes fetch exts rest
        (harvestNode fetch exts st node) hnd1
      refine ⟨hnd2, fun t => ?_⟩
      rw [hmem2 t, List.flatMap_cons, List.mem_append]
      have hh : t ∈ keysOf (harvestNode fetch exts st node).files ↔
          t ∈ keysOf st.files ∨
            t ∈ ((fetch node.1 MemberKind.file).filter
              (acceptedItem exts)).map (·.title) := hmem1 t
      rw [hh]
      tauto

/-- C2: for every traversal (any member-listing capability, any root, any
depth) and every path tuple `p`, the number of unique-pool records whose
stored path-segments equal `p` is at most `raw_membership[p]`; moreover the
pool's keys are pairwise distinct and are exactly the accepted titles
encountered over the whole traversal, so the pool size equals the number of
distinct accepted titles (no title appears twice). -/
theorem traversal_raw_vs_unique (fetch : String → MemberKind → List ApiItem)
    (exts : List String) (root : String) (maxDepth : Nat) :
    (∀ p, countPath p (harvest_files_with_depth fetch exts root maxDepth).1 ≤
      (harvest_files_with_depth fetch exts root maxDepth).2 p) ∧
    (keysOf (harvest_files_with_depth fetch exts root maxDepth).1).Nodup ∧
    (∀ t, t ∈ keysOf (harvest_files_with_depth fetch exts root maxDepth).1 ↔
      t ∈ harvestAcceptedTitles fetch exts root maxDepth) ∧
    (harvest_files_with_depth fetch exts root maxDepth).1.length =
      (harvestAcceptedTitles fetch exts root maxDepth).dedup.length := by
  have hbridge := harvestLevels_eq_foldl fetch exts maxDepth [(root, [])]
    ["Category:" ++ root] ⟨[], fun _ => 0⟩
  have hfst : (harvest_files_with_depth fetch exts root maxDepth).1 =
      ((visitedNodes fetch root maxDepth).foldl (harvestNode fetch exts)
        ⟨[], fun _ => 0⟩).files := by
    rw [harvest_files_with_depth, hbridge]; rfl
  have hsnd : (harvest_files_with_depth fetch exts root maxDepth).2 =
      ((visitedNodes fetch root maxDepth).foldl (harvestNode fetch exts)
        ⟨[], fun _ => 0⟩).raw := by
    rw [harvest_files_with_depth, hbridge]; rfl
  obtain ⟨hnd, hmem⟩ := keys_foldl_nodes fetch exts
    (visitedNodes fetch root maxDepth) ⟨[], fun _ => 0⟩
    (by simp [keysOf])
  have hmem' : ∀ t,
      t ∈ keysOf (harvest_files_with_depth fetch exts root maxDepth).1 ↔
        t ∈ harvestAcceptedTitles fetch exts root maxDepth := by
    intro t
    rw [hfst, harvestAcceptedTitles]
    rw [hmem t]
    simp [keysOf]
  refine ⟨?_, ?_, hmem', ?_⟩
  · intro p
    rw [hfst, hsnd]
    exact raw_le_of_foldl fetch exts _ _ (fun p => by simp [countPath]) p
  · rw [hfst]; exact hnd
  · have hlen : (harvest_files_with_depth fetch exts root maxDepth).1.length =
        (keysOf (harvest_files_with_depth fetch exts root
          maxDepth).1).length := by
      rw [keysOf, List.length_map]
    rw [hlen]
    have hnd' : (keysOf (harvest_files_with_depth fetch exts root
        maxDepth).1).Nodup := by rw [hfst]; exact hnd
    rw [← List.toFinset_card_of_nodup hnd', ← List.card_toFinset]
    congr 1
    ext t
    rw [List.mem_toFinset, List.mem_toFinset]
    exact hmem' t

/-! ## C5: filename safety -/

/-- Counterexample to C5: with the claim's own example budget 40 and a
60-character absolute containing folder, the produced absolute path length
is 83, far beyond the budget — the source floors `available_for_name` at
`len(ext) + len(suffix) + 1`, so no fixed minimum budget works for every
folder. -/
theorem sanitize_budget_counterexample :
    cxFolder.length + 1 +
      (sanitize_filename cxHash id "a.jpg".data (some cxFolder) 120
        (some 40) none).length = 83 ∧
    ¬(cxFolder.length + 1 +
      (sanitize_filename cxHash id "a.jpg".data (some cxFolder) 120
        (some 40) none).length ≤ 40) := by
  refine ⟨by decide, by decide⟩

theorem take_max_one_length {α : Type} (l : List α) :
    l.take (max 1 l.length) = l := by
  cases l with
  | nil => rfl
  | cons a t =>
      have h : (1 : Nat) ≤ (a :: t).length := by
        rw [List.length_cons]; omega
      rw [max_eq_right h, List.take_length]

/-- C5 (amended): the result is always a (possibly truncated, never below
one character) prefix of the capped stem followed by the identity or
no-MID-hash suffix and the extension; and whenever the full-path budget is
at least the absolute folder length plus separator plus suffix, extension
and one stem character, the absolute path length stays within the budget.
For smaller budgets (the original claim allowed any budget at least 40) the
floor on the name length makes the bound fail, as the counterexample
shows. -/
theorem sanitize_filename_structure_and_budget
    (hash absPath : List Char → List Char) (filename folder : List Char)
    (maxLen budget : Nat) (mid : Option (List Char))
    (hb : (absPath folder).length + 2 +
      (sanitizeSuffix hash filename mid).length +
      (sanitizeExt filename).length ≤ budget) :
    (∃ k, 1 ≤ k ∧
      sanitize_filename hash absPath filename (some folder) maxLen
        (some budget) mid =
      (sanitizeStem filename maxLen).take k ++
        sanitizeSuffix hash filename mid ++ sanitizeExt filename) ∧
    (absPath folder).length + 1 +
      (sanitize_filename hash absPath filename (some folder) maxLen
        (some budget) mid).length ≤ budget := by
  have havail : sanitizeAvail absPath (some folder) (some budget) maxLen
      (sanitizeExt filename).length (sanitizeSuffix hash filename mid).length
      = budget - (absPath folder).length - 1 := by
    have h1 : (((sanitizeExt filename).length : Int) +
        (sanitizeSuffix hash filename mid).length + 1) ≤
        ((budget : Int) - (absPath folder).length - 1) := by omega
    simp only [sanitizeAvail, Option.getD]
    rw [max_eq_left h1]
    omega
  have hresult : sanitize_filename hash absPath filename (some folder)
      maxLen (some budget) mid =
      (if (sanitizeStem filename maxLen).length +
          (sanitizeSuffix hash filename mid).length +
          (sanitizeExt filename).length >
          sanitizeAvail absPath (some folder) (some budget) maxLen
            (sanitizeExt filename).length
            (sanitizeSuffix hash filename mid).length
        then (sanitizeStem filename maxLen).take
          (max 1 (sanitizeAvail absPath (some folder) (some budget) maxLen
            (sanitizeExt filename).length
            (sanitizeSuffix hash filename mid).length -
            (sanitizeSuffix hash filename mid).length -
            (sanitizeExt filename).length))
        else sanitizeStem filename maxLen) ++
        sanitizeSuffix hash filename mid ++ sanitizeExt filename := rfl
  rw [hresult, havail]
  by_cases htrim : (sanitizeStem filename maxLen).length +
      (sanitizeSuffix hash filename mid).length +
      (sanitizeExt filename).length >
      budget - (absPath folder).length - 1
  · rw [if_pos htrim]
    have hfloor : max 1 (budget - (absPath folder).length - 1 -
        (sanitizeSuffix hash filename mid).length -
        (sanitizeExt filename).length) =
        budget - (absPath folder).length - 1 -
        (sanitizeSuffix hash filename mid).length -
        (sanitizeExt filename).length := by omega
    refine ⟨⟨max 1 (budget - (absPath folder).length - 1 -
      (sanitizeSuffix hash filename mid).length -
      (sanitizeExt filename).length), le_max_left _ _, rfl⟩, ?_⟩
    rw [List.length_append, List.length_append, List.length_take, hfloor]
    have hmin := min_le_left (budget - (absPath folder).length - 1 -
      (sanitizeSuffix hash filename mid).length -
      (sanitizeExt filename).length) (sanitizeStem filename maxLen).length
    omega
  · rw [if_neg htrim]
    refine ⟨⟨max 1 (sanitizeStem filename maxLen).length, le_max_left _ _,
      by rw [take_max_one_length]⟩, ?_⟩
    rw [List.length_append, List.length_append]
    omega

/-- Witness for C5 (amended) at a concrete name, folder and budget. -/
theorem sanitize_filename_structure_and_budget_witness :
    (∃ k, 1 ≤ k ∧
      sanitize_filename cxHash id "photo.jpg".data (some "/tmp/imgs".data)
        120 (some 60) (some "M123".data) =
      (sanitizeStem "photo.jpg".data 120).take k ++
        sanitizeSuffix cxHash "photo.jpg".data (some "M123".data) ++
        sanitizeExt "photo.jpg".data) ∧
    (id "/tmp/imgs".data : List Char).length + 1 +
      (sanitize_filename cxHash id "photo.jpg".data (some "/tmp/imgs".data)
        120 (some 60) (some "M123".data)).length ≤ 60 :=
  sanitize_filename_structure_and_budget cxHash id "photo.jpg".data
    "/tmp/imgs".data 120 60 (some "M123".data) (by decide)

/-! ## C6: log idempotence and its dedupe key -/

/-- Counterexample to C6: running the pipeline twice (overwrite disabled,
unchanged two-title selection, both titles resolving to one and the same
asset URL with empty numeric ID) leaves a sink with TWO rows for the single
distinct (resolved asset URL, numeric-ID) pair — the sink deduplicates on
the page URL (`CommonsFileURL`), not on the resolved asset URL
(`CommonsImageURL`). -/
theorem log_idempotence_asset_key_counterexample :
    (c6Run2.2.1.sink.getD []).length = 2 ∧
    ¬(((c6Run2.2.1.sink.getD []).map
        (fun r => (r.CommonsImageURL, r.MediaInfoID))).Nodup) := by
  refine ⟨by decide, by decide⟩

theorem dedupKeysFirst_nodup_mem :
    ∀ (l : List LogRow) (seen : List (String × String)),
      ((dedupKeysFirst seen l).map logKey).Nodup ∧
      ∀ k, k ∈ (dedupKeysFirst seen l).map logKey ↔
        k ∈ l.map logKey ∧ k ∉ seen
  | [], seen => ⟨List.nodup_nil, fun k => by simp [dedupKeysFirst]⟩
  | r :: rest, seen => by
      by_cases hm : logKey r ∈ seen
      · obtain ⟨h1, h2⟩ := dedupKeysFirst_nodup_mem rest seen
        rw [dedupKeysFirst, if_pos hm]
        refine ⟨h1, fun k => ?_⟩
        simp only [h2 k, List.map_cons, List.mem_cons]
        constructor
        · rintro ⟨hk, hns⟩
          exact ⟨Or.inr hk, hns⟩
        · rintro ⟨hkr | hk, hns⟩
          · exact absurd hm (hkr ▸ hns)
          · exact ⟨hk, hns⟩
      · obtain ⟨h1', h2'⟩ := dedupKeysFirst_nodup_mem rest (logKey r :: seen)
        rw [dedupKeysFirst, if_neg hm]
        constructor
        · rw [List.map_cons, List.nodup_cons]
          refine ⟨fun hc => ?_, h1'⟩
          rw [h2' (logKey r)] at hc
          exact hc.2 (List.mem_cons_self _ _)
        · intro k
          simp only [List.map_cons, List.mem_cons, h2' k]
          constructor
          · rintro (rfl | ⟨hk, hns⟩)
            · exact ⟨Or.inl rfl, hm⟩
            · exact ⟨Or.inr hk, fun hcs => hns (Or.inr hcs)⟩
          · rintro ⟨hkr | hk, hns⟩
            · exact Or.inl hkr
            · by_cases hkr : k = logKey r
              · exact Or.inl hkr
              · exact Or.inr ⟨hk, fun hc => hc.elim hkr hns⟩

/-- C6 (amended): re-flushing the identical batch over the sink it produced
is idempotent with respect to the key the sink actually deduplicates on —
the page URL `CommonsFileURL` paired with the numeric ID: after the second
run the sink holds exactly one row per distinct (page URL, numeric-ID) pair
of the batch. -/
theorem log_append_idempotent_on_dedupe_keys (rows : List LogRow) :
    (((append_rows_to_excel_log false
        (append_rows_to_excel_log false none rows) rows).getD []).map
      logKey).Nodup ∧
    ∀ k, k ∈ ((append_rows_to_excel_log false
        (append_rows_to_excel_log false none rows) rows).getD []).map
      logKey ↔ k ∈ rows.map logKey := by
  cases rows with
  | nil => simp [append_rows_to_excel_log]
  | cons r rest =>
      have hne : ((r :: rest : List LogRow)).isEmpty = false := rfl
      have hs1 : append_rows_to_excel_log false none (r :: rest) =
          some (r :: rest) := by
        rw [append_rows_to_excel_log]
        simp
      have hs2 : append_rows_to_excel_log false (some (r :: rest))
          (r :: rest) =
          some (dedupKeysFirst [] ((r :: rest) ++ (r :: rest))) := by
        rw [append_rows_to_excel_log]
        simp
      rw [hs1, hs2]
      obtain ⟨h1, h2⟩ := dedupKeysFirst_nodup_mem
        ((r :: rest) ++ (r :: rest)) []
      refine ⟨h1, fun k => ?_⟩
      rw [Option.getD_some] at *
      rw [h2 k]
      rw [List.map_append, List.mem_append]
      constructor
      · rintro ⟨h | h, _⟩ <;> exact h
      · intro h
        exact ⟨Or.inl h, List.not_mem_nil k⟩

/-! ## C7: dry-run frame -/

/-- One dry-run loop step: the world is untouched and exactly one
would-save-as report is emitted. -/
theorem pdStep_dry_shape (env : DlEnv) (overwrite flatten : Bool)
    (flushN : Nat) (rs base : String) (total : Nat) (st : PDState)
    (entry : String × FileMeta) :
    ∃ row name, pdStep env overwrite true flatten flushN rs base total st
        entry =
      { idx := st.idx + 1
        buffer := st.buffer ++ [row]
        written := st.written + 1
        w := st.w
        reports := st.reports ++
          [Report.item (st.idx + 1) total entry.1 "would save as" name] } :=
  ⟨_, _, rfl⟩

theorem pd_fold_dry (env : DlEnv) (overwrite flatten : Bool) (flushN : Nat)
    (rs base : String) (total : Nat) :
    ∀ (files : List (String × FileMeta)) (st : PDState),
      (files.foldl (pdStep env overwrite true flatten flushN rs base total)
        st).w = st.w ∧
      ∀ r ∈ (files.foldl (pdStep env overwrite true flatten flushN rs base
        total) st).reports,
        r ∈ st.reports ∨ ∃ i tot ti n,
          r = Report.item i tot ti "would save as" n
  | [], st => ⟨rfl, fun _ hr => Or.inl hr⟩
  | entry :: rest, st => by
      rw [List.foldl_cons]
      obtain ⟨row, name, hstep⟩ := pdStep_dry_shape env overwrite flatten
        flushN rs base total st entry
      rw [hstep]
      obtain ⟨hw, hrep⟩ := pd_fold_dry env overwrite flatten flushN rs base
        total rest
        { idx := st.idx + 1
          buffer := st.buffer ++ [row]
          written := st.written + 1
          w := st.w
          reports := st.reports ++
            [Report.item (st.idx + 1) total entry.1 "would save as" name] }
      refine ⟨hw, fun r hr => ?_⟩
      rcases hrep r hr with h | h
      · rcases List.mem_append.mp h with h' | h'
        · exact Or.inl h'
        · rcases List.mem_singleton.mp h' with rfl
          exact Or.inr ⟨st.idx + 1, total, entry.1, name, rfl⟩
      · exact Or.inr h

/-- Dry-run reduction of the driver: no final flush happens. -/
theorem perform_downloads_dry (env : DlEnv) (overwrite flatten : Bool)
    (flushN : Nat) (rs base : String) (files : List (String × FileMeta))
    (w : World) :
    perform_downloads env overwrite true flatten flushN rs base files w =
      ((files.foldl (pdStep env overwrite true flatten flushN rs base
        files.length) ⟨0, [], 0, w, []⟩).written,
       (files.foldl (pdStep env overwrite true flatten flushN rs base
        files.length) ⟨0, [], 0, w, []⟩).w,
       (files.foldl (pdStep env overwrite true flatten flushN rs base
        files.length) ⟨0, [], 0, w, []⟩).reports) := rfl

/-- C7: with dry-run active no operation of the pipeline touches the
filesystem or the log sink — `ensure_folder` creates nothing,
`append_rows_to_excel_log` persists nothing, `download_file` writes nothing
and the whole `perform_downloads` run leaves the world exactly as it was —
while URL resolution is still performed (the returned URL is the API
resolution of the title) and every per-item report says "would save as". -/
theorem dry_run_frame (env : DlEnv) (overwrite flatten create : Bool)
    (flushN : Nat) (rs base base2 rs2 : String) (segs : List String)
    (files : List (String × FileMeta)) (w : World)
    (store : Option (List LogRow)) (rows : List LogRow)
    (url folder filename : String) (mid : Option String)
    (title : Option String) :
    (ensure_folder env.shortHash true base2 rs2 segs create w).2 = w ∧
    append_rows_to_excel_log true store rows = store ∧
    download_file env overwrite true url folder filename mid title w =
      Except.ok ((sanitizeFilenameStr env.shortHash env.absPath filename
        (some folder) 120 (some FULL_PATH_BUDGET) mid,
        env.resolveApi (strOrDefault title ("File:" ++ filename))), w) ∧
    (perform_downloads env overwrite true flatten flushN rs base files
      w).2.1 = w ∧
    ∀ r ∈ (perform_downloads env overwrite true flatten flushN rs base files
      w).2.2, ∃ i tot ti n, r = Report.item i tot ti "would save as" n := by
  obtain ⟨hw, hrep⟩ := pd_fold_dry env overwrite flatten flushN rs base
    files.length files ⟨0, [], 0, w, []⟩
  refine ⟨?_, rfl, rfl, ?_, ?_⟩
  · rw [ensure_folder]
    simp
  · rw [perform_downloads_dry]
    exact hw
  · intro r hr
    rw [perform_downloads_dry] at hr
    rcases hrep r hr with h | h
    · exact absurd h (List.not_mem_nil r)
    · exact h

/-! ## C9: per-item failure tolerance -/

theorem string_append_left_cancel (p a b : String) (h : p ++ a = p ++ b) :
    a = b := by
  have hd : p.data ++ a.data = p.data ++ b.data := by
    rw [← String.data_append, ← String.data_append, h]
  cases a with
  | mk da =>
      cases b with
      | mk db =>
          have : da = db := List.append_cancel_left hd
          rw [this]

/-- Distinct file names force distinct dedupe keys for rows whose page URL
column is built from the name. -/
theorem rows_keys_nodup (rows : List LogRow)
    (hurl : ∀ r ∈ rows, r.CommonsFileURL = wikiUrlPfx ++ r.CommonsFileName)
    (hnames : (rows.map (fun r => r.CommonsFileName)).Nodup) :
    (rows.map logKey).Nodup := by
  have h1 : rows.Pairwise
      (fun a b => a.CommonsFileName ≠ b.CommonsFileName) :=
    List.pairwise_map.mp hnames
  have h2 : rows.Pairwise (fun a b => logKey a ≠ logKey b) := by
    refine List.Pairwise.imp_of_mem ?_ h1
    intro a b ha hb hne heq
    apply hne
    have hka := hurl a ha
    have hkb := hurl b hb
    have hfst : a.CommonsFileURL = b.CommonsFileURL :=
      congrArg Prod.fst heq
    rw [hka, hkb] at hfst
    exact string_append_left_cancel _ _ _ hfst
  exact List.pairwise_map.mpr h2

theorem dedupKeysFirst_noop :
    ∀ (l : List LogRow) (seen : List (String × String)),
      (l.map logKey).Nodup → (∀ r ∈ l, logKey r ∉ seen) →
      dedupKeysFirst seen l = l
  | [], _, _, _ => rfl
  | r :: rest, seen, hnd, hdisj => by
      rw [List.map_cons, List.nodup_cons] at hnd
      rw [dedupKeysFirst, if_neg (hdisj r (List.mem_cons_self r rest))]
      congr 1
      refine dedupKeysFirst_noop rest (logKey r :: seen) hnd.2 ?_
      intro r' hr' hc
      rcases List.mem_cons.mp hc with h | h
      · exact hnd.1 (h ▸ List.mem_map.mpr ⟨r', hr', rfl⟩)
      · exact hdisj r' (List.mem_cons_of_mem _ hr') h

/-- Flushing a nonempty batch with fresh keys appends it to the sink. -/
theorem append_log_rows (sink : Option (List LogRow)) (rows : List LogRow)
    (hne : rows ≠ [])
    (hnd : ((sink.getD [] ++ rows).map logKey).Nodup) :
    append_rows_to_excel_log false sink rows =
      some (sink.getD [] ++ rows) := by
  have hemp : rows.isEmpty = false := by
    cases rows with
    | nil => exact absurd rfl hne
    | cons a t => rfl
  cases sink with
  | none =>
      rw [append_rows_to_excel_log]
      simp [hemp]
  | some existing =>
      rw [append_rows_to_excel_log]
      simp only [Bool.false_eq_true, if_false, hemp, Option.getD_some]
      rw [dedupKeysFirst_noop (existing ++ rows) []
        (by simpa using hnd) (fun r _ hc => List.not_mem_nil _ hc)]

theorem ensure_folder_sink (hash : String → String) (dry : Bool)
    (base rs : String) (segs : List String) (create : Bool) (w : World) :
    (ensure_folder hash dry base rs segs create w).2.sink = w.sink := by
  rw [ensure_folder]
  split <;> rfl

theorem download_file_sink (env : DlEnv) (overwrite dry : Bool)
    (url folder filename : String) (mid : Option String)
    (title : Option String) (w : World)
    (r : (String × String) × World)
    (h : download_file env overwrite dry url folder filename mid title w =
      Except.ok r) : r.2.sink = w.sink := by
  rw [download_file] at h
  split_ifs at h with h1 h2
  · rcases Except.ok.inj h with rfl
    rfl
  · rcases Except.ok.inj h with rfl
    rfl
  · rcases hf : env.fetchUrl url with e | resolved
    · rw [hf] at h
      exact absurd h (by simp)
    · rw [hf] at h
      rcases Except.ok.inj h with rfl
      rfl

/-- Case analysis on one non-dry loop step: either the fetch fails (one
failure report, nothing buffered, sink untouched) or it succeeds (one row
for this title buffered, one success report, possibly a flush). -/
theorem pdStep_run_cases (env : DlEnv) (overwrite flatten : Bool)
    (flushN : Nat) (rs base : String) (total : Nat) (st : PDState)
    (entry : String × FileMeta) :
    (∃ e w1,
      pdStep env overwrite false flatten flushN rs base total st entry =
        { idx := st.idx + 1
          buffer := st.buffer
          written := st.written
          w := w1
          reports := st.reports ++
            [Report.failed (st.idx + 1) total entry.1 e] } ∧
      w1.sink = st.w.sink) ∨
    (∃ row name w2,
      (pdStep env overwrite false flatten flushN rs base total st entry =
        { idx := st.idx + 1
          buffer := st.buffer ++ [row]
          written := st.written + 1
          w := w2
          reports := st.reports ++ [Report.item (st.idx + 1) total entry.1
            "saved as" name] } ∨
       pdStep env overwrite false flatten flushN rs base total st entry =
        { idx := st.idx + 1
          buffer := []
          written := st.written + 1
          w := { w2 with
                 sink := append_rows_to_excel_log false w2.sink
                   (st.buffer ++ [row]) }
          reports := (st.reports ++ [Report.item (st.idx + 1) total entry.1
            "saved as" name]) ++
            [Report.flushed (st.buffer ++ [row]).length] }) ∧
      w2.sink = st.w.sink ∧
      row.CommonsFileName = entry.1 ∧
      row.CommonsFileURL = wikiUrlPfx ++ entry.1) := by
  rcases hdl : download_file env overwrite false
      (env.quote ("https://commons.wikimedia.org/wiki/Special:FilePath/" ++
        stripFileColonStr entry.1))
      (ensure_folder env.shortHash false base rs
        (if flatten then
          match entry.2.path_segments with
          | [] => entry.2.path_segments
          | s :: _ => [s]
        else entry.2.path_segments) (!false) st.w).1
      (stripFileColonStr entry.1) (some entry.2.mid)
      (some (strOrDefault (some entry.2.title) entry.1))
      (ensure_folder env.shortHash false base rs
        (if flatten then
          match entry.2.path_segments with
          | [] => entry.2.path_segments
          | s :: _ => [s]
        else entry.2.path_segments) (!false) st.w).2
    with e | ok
  · refine Or.inl ⟨e, (ensure_folder env.shortHash false base rs
      (if flatten then
        match entry.2.path_segments with
        | [] => entry.2.path_segments
        | s :: _ => [s]
      else entry.2.path_segments) (!false) st.w).2, ?_, ?_⟩
    · simp only [pdStep]
      rw [hdl]
    · exact ensure_folder_sink env.shortHash false base rs _ (!false) st.w
  · rcases ok with ⟨⟨name, uurl⟩, w2⟩
    have hsink : w2.sink = st.w.sink := by
      have h1 := download_file_sink env overwrite false _ _ _ _ _ _
        (⟨(name, uurl), w2⟩ : (String × String) × World) hdl
      rw [h1]
      exact ensure_folder_sink env.shortHash false base rs _ (!false) st.w
    simp only [pdStep]
    rw [hdl]
    simp only [Bool.not_false, Bool.true_and]
    split_ifs <;>
      first
        | exact Or.inr ⟨_, name, w2, Or.inr rfl, hsink, rfl, rfl⟩
        | exact Or.inr ⟨_, name, w2, Or.inl rfl, hsink, rfl, rfl⟩
        | simp_all

/-- Invariant of the non-dry download loop: one non-flush report per item in
order, the written counter counts the success reports, and the durable rows
(sink plus buffer) are exactly the successfully-processed titles. -/
theorem pd_fold_run (env : DlEnv) (overwrite flatten : Bool) (flushN : Nat)
    (rs base : String) (total : Nat) :
    ∀ (files : List (String × FileMeta)) (st : PDState),
      (∀ r ∈ rowsState st, r.CommonsFileURL =
        wikiUrlPfx ++ r.CommonsFileName) →
      ((rowsState st).map (fun r => r.CommonsFileName)).Nodup →
      (∀ t ∈ files.map (fun e => e.1),
        t ∉ (rowsState st).map (fun r => r.CommonsFileName)) →
      (files.map (fun e => e.1)).Nodup →
      ∃ ds : List Report,
        (files.foldl (pdStep env overwrite false flatten flushN rs base
          total) st).reports = st.reports ++ ds ∧
        (ds.filter (fun r => !isFlushed r)).map reportTitle =
          files.map (fun e => e.1) ∧
        (files.foldl (pdStep env overwrite false flatten flushN rs base
          total) st).written =
          st.written + (ds.filter isItemReport).length ∧
        (∀ r ∈ rowsState (files.foldl (pdStep env overwrite false flatten
          flushN rs base total) st), r.CommonsFileURL =
          wikiUrlPfx ++ r.CommonsFileName) ∧
        (rowsState (files.foldl (pdStep env overwrite false flatten flushN
          rs base total) st)).map (fun r => r.CommonsFileName) =
          (rowsState st).map (fun r => r.CommonsFileName) ++
            (ds.filter isItemReport).map reportTitle
  | [], st, hurl, _, _, _ =>
      ⟨[], by simp, by simp, by simp, hurl, by simp⟩
  | entry :: rest, st, hurl, hnames, hdisj, hnd => by
      rw [List.foldl_cons]
      have hndr : (rest.map (fun e => e.1)).Nodup := by
        rw [List.map_cons, List.nodup_cons] at hnd
        exact hnd.2
      have hfreshrest : entry.1 ∉ rest.map (fun e => e.1) := by
        rw [List.map_cons, List.nodup_cons] at hnd
        exact hnd.1
      rcases pdStep_run_cases env overwrite flatten flushN rs base total st
          entry with
        ⟨e, w1, heq, hs⟩ | ⟨row, name, w2, heq2, hs, hrowname, hrowurl⟩
      · -- the fetch of this item fails
        have hTr : (pdStep env overwrite false flatten flushN rs base total
            st entry).reports = st.reports ++
            [Report.failed (st.idx + 1) total entry.1 e] := by rw [heq]
        have hTw : (pdStep env overwrite false flatten flushN rs base total
            st entry).written = st.written := by rw [heq]
        have hTrows : rowsState (pdStep env overwrite false flatten flushN
            rs base total st entry) = rowsState st := by
          rw [heq]
          simp only [rowsState]
          rw [hs]
        have hu : ∀ r ∈ rowsState (pdStep env overwrite false flatten flushN
            rs base total st entry), r.CommonsFileURL =
            wikiUrlPfx ++ r.CommonsFileName := by
          rw [hTrows]; exact hurl
        have hn : ((rowsState (pdStep env overwrite false flatten flushN rs
            base total st entry)).map
            (fun r => r.CommonsFileName)).Nodup := by
          rw [hTrows]; exact hnames
        have hd : ∀ t ∈ rest.map (fun e => e.1), t ∉ (rowsState (pdStep env
            overwrite false flatten flushN rs base total st entry)).map
            (fun r => r.CommonsFileName) := by
          rw [hTrows]
          intro t ht
          exact hdisj t (by rw [List.map_cons]; exact
            List.mem_cons_of_mem _ ht)
        obtain ⟨ds, h1, h2, h3, h4, h5⟩ := pd_fold_run env overwrite flatten
          flushN rs base total rest _ hu hn hd hndr
        refine ⟨Report.failed (st.idx + 1) total entry.1 e :: ds,
          ?_, ?_, ?_, h4, ?_⟩
        · rw [h1, hTr, List.append_assoc]
          rfl
        · rw [List.map_cons, ← h2]
          simp [List.filter_cons, isFlushed, reportTitle]
        · rw [h3, hTw]
          simp [List.filter_cons, isItemReport]
        · rw [h5, hTrows]
          simp [List.filter_cons, isItemReport]
      · -- this item downloads successfully
        have hfresh : entry.1 ∉ (rowsState st).map
            (fun r => r.CommonsFileName) :=
          hdisj entry.1 (by rw [List.map_cons]; exact
            List.mem_cons_self _ _)
        have hurl2 : ∀ r ∈ rowsState st ++ [row], r.CommonsFileURL =
            wikiUrlPfx ++ r.CommonsFileName := by
          intro r hr
          rcases List.mem_append.mp hr with h | h
          · exact hurl r h
          · rcases List.mem_singleton.mp h with rfl
            rw [hrowurl, hrowname]
        have hnames2 : ((rowsState st ++ [row]).map
            (fun r => r.CommonsFileName)).Nodup := by
          rw [List.map_append, List.nodup_append]
          refine ⟨hnames, by simp, ?_⟩
          intro a ha hb
          simp only [List.map_cons, List.map_nil,
            List.mem_singleton] at hb
          rw [hb, hrowname] at ha
          exact hfresh ha
        rcases heq2 with heq | heq
        · -- no flush on this step
          have hTr : (pdStep env overwrite false flatten flushN rs base
              total st entry).reports = st.reports ++
              [Report.item (st.idx + 1) total entry.1 "saved as" name] := by
            rw [heq]
          have hTw : (pdStep env overwrite false flatten flushN rs base
              total st entry).written = st.written + 1 := by rw [heq]
          have hTrows : rowsState (pdStep env overwrite false flatten flushN
              rs base total st entry) = rowsState st ++ [row] := by
            rw [heq]
            simp only [rowsState]
            rw [hs, List.append_assoc]
          have hu : ∀ r ∈ rowsState (pdStep env overwrite false flatten
              flushN rs base total st entry), r.CommonsFileURL =
              wikiUrlPfx ++ r.CommonsFileName := by
            rw [hTrows]; exact hurl2
          have hn : ((rowsState (pdStep env overwrite false flatten flushN
              rs base total st entry)).map
              (fun r => r.CommonsFileName)).Nodup := by
            rw [hTrows]; exact hnames2
          have hd : ∀ t ∈ rest.map (fun e => e.1), t ∉ (rowsState (pdStep
              env overwrite false flatten flushN rs base total st
              entry)).map (fun r => r.CommonsFileName) := by
            rw [hTrows]
            intro t ht hc
            rw [List.map_append] at hc
            rcases List.mem_append.mp hc with h | h
            · exact hdisj t (by rw [List.map_cons]; exact
                List.mem_cons_of_mem _ ht) h
            · simp only [List.map_cons, List.map_nil,
                List.mem_singleton] at h
              rw [h, hrowname] at ht
              exact hfreshrest ht
          obtain ⟨ds, h1, h2, h3, h4, h5⟩ := pd_fold_run env overwrite
            flatten flushN rs base total rest _ hu hn hd hndr
          refine ⟨Report.item (st.idx + 1) total entry.1 "saved as" name ::
            ds, ?_, ?_, ?_, h4, ?_⟩
          · rw [h1, hTr, List.append_assoc]
            rfl
          · rw [List.map_cons, ← h2]
            simp [List.filter_cons, isFlushed, reportTitle]
          · rw [h3, hTw]
            rw [show (List.filter isItemReport (Report.item (st.idx + 1)
              total entry.1 "saved as" name :: ds)).length =
              (List.filter isItemReport ds).length + 1 from by
                simp [List.filter_cons, isItemReport]]
            omega
          · rw [h5, hTrows]
            rw [show List.filter isItemReport (Report.item (st.idx + 1)
              total entry.1 "saved as" name :: ds) =
              Report.item (st.idx + 1) total entry.1 "saved as" name ::
                List.filter isItemReport ds from by
                simp [List.filter_cons, isItemReport]]
            simp [hrowname, reportTitle, List.append_assoc]
        · -- this step flushes the buffer
          have happend : append_rows_to_excel_log false w2.sink
              (st.buffer ++ [row]) =
              some (w2.sink.getD [] ++ (st.buffer ++ [row])) := by
            refine append_log_rows _ _ (by simp) ?_
            have hre : w2.sink.getD [] ++ (st.buffer ++ [row]) =
                rowsState st ++ [row] := by
              simp only [rowsState]
              rw [hs, List.append_assoc]
            rw [hre]
            exact rows_keys_nodup _ hurl2 hnames2
          have hTr : (pdStep env overwrite false flatten flushN rs base
              total st entry).reports = (st.reports ++
              [Report.item (st.idx + 1) total entry.1 "saved as" name]) ++
              [Report.flushed (st.buffer ++ [row]).length] := by rw [heq]
          have hTw : (pdStep env overwrite false flatten flushN rs base
              total st entry).written = st.written + 1 := by rw [heq]
          have hTrows : rowsState (pdStep env overwrite false flatten flushN
              rs base total st entry) = rowsState st ++ [row] := by
            rw [heq]
            simp only [rowsState]
            rw [happend]
            simp only [Option.getD_some, List.append_nil]
            rw [hs, List.append_assoc]
          have hu : ∀ r ∈ rowsState (pdStep env overwrite false flatten
              flushN rs base total st entry), r.CommonsFileURL =
              wikiUrlPfx ++ r.CommonsFileName := by
            rw [hTrows]; exact hurl2
          have hn : ((rowsState (pdStep env overwrite false flatten flushN
              rs base total st entry)).map
              (fun r => r.CommonsFileName)).Nodup := by
            rw [hTrows]; exact hnames2
          have hd : ∀ t ∈ rest.map (fun e => e.1), t ∉ (rowsState (pdStep
              env overwrite false flatten flushN rs base total st
              entry)).map (fun r => r.CommonsFileName) := by
            rw [hTrows]
            intro t ht hc
            rw [List.map_append] at hc
            rcases List.mem_append.mp hc with h | h
            · exact hdisj t (by rw [List.map_cons]; exact
                List.mem_cons_of_mem _ ht) h
            · simp only [List.map_cons, List.map_nil,
                List.mem_singleton] at h
              rw [h, hrowname] at ht
              exact hfreshrest ht
          obtain ⟨ds, h1, h2, h3, h4, h5⟩ := pd_fold_run env overwrite
            flatten flushN rs base total rest _ hu hn hd hndr
          refine ⟨Report.item (st.idx + 1) total entry.1 "saved as" name ::
            Report.flushed (st.buffer ++ [row]).length :: ds,
            ?_, ?_, ?_, h4, ?_⟩
          · rw [h1, hTr]
            simp [List.append_assoc]
          · rw [List.map_cons, ← h2]
            simp [List.filter_cons, isFlushed, reportTitle]
          · rw [h3, hTw]
            rw [show (List.filter isItemReport (Report.item (st.idx + 1)
              total entry.1 "saved as" name :: Report.flushed
              (st.buffer ++ [row]).length :: ds)).length =
              (List.filter isItemReport ds).length + 1 from by
                simp [List.filter_cons, isItemReport]]
            omega
          · rw [h5, hTrows]
            rw [show List.filter isItemReport (Report.item (st.idx + 1)
              total entry.1 "saved as" name :: Report.flushed
              (st.buffer ++ [row]).length :: ds) =
              Report.item (st.idx + 1) total entry.1 "saved as" name ::
                List.filter isItemReport ds from by
                simp [List.filter_cons, isItemReport]]
            simp [hrowname, reportTitle, List.append_assoc]

/-- Success reports are a sub-sequence of the non-flush reports. -/
theorem filter_item_sublist (ds : List Report) :
    List.Sublist (ds.filter isItemReport)
      (ds.filter (fun r => !isFlushed r)) := by
  induction ds with
  | nil => exact List.Sublist.refl _
  | cons r rest ih =>
      cases r with
      | item i t ti v n =>
          simp only [List.filter_cons]
          rw [if_pos (show isItemReport (Report.item i t ti v n) = true from
              rfl),
            if_pos (show (!isFlushed (Report.item i t ti v n)) = true from
              rfl)]
          exact List.Sublist.cons₂ _ ih
      | failed i t ti e =>
          simp only [List.filter_cons]
          rw [if_neg (show ¬(isItemReport (Report.failed i t ti e) = true)
              from fun h => by simp [isItemReport] at h),
            if_pos (show (!isFlushed (Report.failed i t ti e)) = true from
              rfl)]
          exact List.Sublist.cons _ ih
      | flushed n =>
          simp only [List.filter_cons]
          rw [if_neg (show ¬(isItemReport (Report.flushed n) = true)
              from fun h => by simp [isItemReport] at h),
            if_neg (show ¬((!isFlushed (Report.flushed n)) = true)
              from fun h => by simp [isFlushed] at h)]
          exact ih

/-- C9: with dry-run off, a failing fetch never aborts the batch: every
selected item yields exactly one non-flush report in selection order (a
failure report for failing items), the returned count equals the number of
per-item success reports, and — starting from an absent sink — the rows
persisted in the sink are exactly the successfully processed titles (no row
for a failed item). -/
theorem per_item_failure_tolerance (env : DlEnv) (overwrite flatten : Bool)
    (flushN : Nat) (rs base : String) (files : List (String × FileMeta))
    (w : World) (hsink : w.sink = none)
    (hkeys : (files.map (fun e => e.1)).Nodup) :
    (((perform_downloads env overwrite false flatten flushN rs base files
        w).2.2).filter (fun r => !isFlushed r)).map reportTitle =
      files.map (fun e => e.1) ∧
    (perform_downloads env overwrite false flatten flushN rs base files
        w).1 =
      (((perform_downloads env overwrite false flatten flushN rs base files
        w).2.2).filter isItemReport).length ∧
    (((perform_downloads env overwrite false flatten flushN rs base files
        w).2.1).sink.getD []).map (fun r => r.CommonsFileName) =
      (((perform_downloads env overwrite false flatten flushN rs base files
        w).2.2).filter isItemReport).map reportTitle := by
  have hrows0 : rowsState ⟨0, [], 0, w, []⟩ = [] := by
    simp [rowsState, hsink]
  obtain ⟨ds, h1, h2, h3, h4, h5⟩ := pd_fold_run env overwrite flatten
    flushN rs base files.length files ⟨0, [], 0, w, []⟩
    (by rw [hrows0]; intro r hr; exact absurd hr (List.not_mem_nil r))
    (by rw [hrows0]; exact List.nodup_nil)
    (by rw [hrows0]; intro t _ hc; simp at hc)
    hkeys
  set F := files.foldl (pdStep env overwrite false flatten flushN rs base
    files.length) ⟨0, [], 0, w, []⟩ with hF
  have h1' : F.reports = ds := by rw [h1]; rfl
  have h5' : (rowsState F).map (fun r => r.CommonsFileName) =
      (ds.filter isItemReport).map reportTitle := by
    rw [h5, hrows0]
    rfl
  have hout : perform_downloads env overwrite false flatten flushN rs base
      files w =
      (if (!F.buffer.isEmpty) = true then
        (F.written,
         { F.w with
           sink := append_rows_to_excel_log false F.w.sink F.buffer },
         F.reports ++ [Report.flushed F.buffer.length])
      else (F.written, F.w, F.reports)) := rfl
  by_cases hbe : F.buffer = []
  · have hc : ¬((!F.buffer.isEmpty) = true) := by
      rw [hbe]
      decide
    rw [hout, if_neg hc]
    refine ⟨?_, ?_, ?_⟩
    · rw [h1', h2]
    · rw [h1', h3]
      simp
    · rw [h1']
      have : rowsState F = F.w.sink.getD [] := by
        rw [rowsState, hbe, List.append_nil]
      rw [← this, h5']
  · have hbf : F.buffer.isEmpty = false := by
      cases hbuf : F.buffer with
      | nil => exact absurd hbuf hbe
      | cons b bs => rfl
    have hc : (!F.buffer.isEmpty) = true := by rw [hbf]; rfl
    rw [hout, if_pos hc]
    have hitems : (ds.filter isItemReport).map reportTitle =
        ((F.reports ++ [Report.flushed F.buffer.length]).filter
          isItemReport).map reportTitle := by
      rw [h1', List.filter_append]
      rw [show List.filter isItemReport [Report.flushed F.buffer.length] =
        [] from by simp [isItemReport]]
      rw [List.append_nil]
    refine ⟨?_, ?_, ?_⟩
    · rw [List.filter_append]
      rw [show List.filter (fun r => !isFlushed r)
        [Report.flushed F.buffer.length] = [] from by simp [isFlushed]]
      rw [List.append_nil, h1', h2]
    · rw [h1', List.filter_append]
      rw [show List.filter isItemReport [Report.flushed F.buffer.length] =
        [] from by simp [isItemReport]]
      rw [List.append_nil, h3]
      simp
    · have hnd2 : ((rowsState F).map
          (fun r => r.CommonsFileName)).Nodup := by
        rw [h5']
        refine List.Nodup.sublist ?_ (h2 ▸ hkeys)
        exact (filter_item_sublist ds).map reportTitle
      have happ : append_rows_to_excel_log false F.w.sink F.buffer =
          some (F.w.sink.getD [] ++ F.buffer) :=
        append_log_rows F.w.sink F.buffer hbe
          (rows_keys_nodup _ h4 hnd2)
      show ((append_rows_to_excel_log false F.w.sink F.buffer).getD
        []).map (fun r => r.CommonsFileName) = _
      rw [happ, Option.getD_some]
      show (rowsState F).map (fun r => r.CommonsFileName) = _
      rw [h5', hitems]

/-- Closed instantiation of the failure-tolerance theorem on the three-item
selection whose middle fetch raises (an absent sink, distinct titles). -/
theorem per_item_failure_tolerance_witness :
    c6World.sink = none ∧
    (c9Files.map (fun e => e.1)).Nodup ∧
    ((((perform_downloads c9Env false false false 10 "cats" "dwnlds" c9Files
        c6World).2.2).filter (fun r => !isFlushed r)).map reportTitle =
      c9Files.map (fun e => e.1) ∧
    (perform_downloads c9Env false false false 10 "cats" "dwnlds" c9Files
        c6World).1 =
      (((perform_downloads c9Env false false false 10 "cats" "dwnlds"
        c9Files c6World).2.2).filter isItemReport).length ∧
    (((perform_downloads c9Env false false false 10 "cats" "dwnlds" c9Files
        c6World).2.1).sink.getD []).map (fun r => r.CommonsFileName) =
      (((perform_downloads c9Env false false false 10 "cats" "dwnlds"
        c9Files c6World).2.2).filter isItemReport).map reportTitle) :=
  ⟨rfl, by decide,
   per_item_failure_tolerance c9Env false false 10 "cats" "dwnlds" c9Files
     c6World rfl (by decide)⟩

end Wmc
